import Mathlib

/-!
Verification development for the kpqueue k-LSM relaxed priority queue.

The development shallowly embeds the per-thread distributional LSM
(`dist_lsm_local`, from `dist_lsm_inl.h`), the deferred multi-way merge
helper (`lazy_block`, from `lazy_block_inl.h` / `lazy_block.h`) and the
benchmark interval tree (`interval_tree_inl.h`), and proves or refutes the
specified properties about them.

Keys and values are instantiated at `Nat`, matching the benchmark
instantiation (`uint32_t` keys and values); only the order on keys is used.
Machine integers never overflow in the modelled paths except where noted
(the `memmove` length underflow in `peek`, modelled explicitly as
undefined behaviour).

States that the C++ code can only reach through undefined behaviour are
modelled by `Option`: a `none` result marks undefined behaviour (an
out-of-bounds read or a `size_t` underflow passed to `memmove`).
Loops are modelled with an explicit fuel parameter; exhausted fuel also
yields `none`, so every `some` result is a genuine terminating run.
-/

namespace Kpq

/-- Modelled from the spec: `item<K, V>` (`item.h` is absent from the
sources).  An item holds a key, a value and a version stamp; the holder of
the matching version owns the item (§4.A).  `take` is the version CAS. -/
structure Item where
  key : Nat
  val : Nat
  version : Nat
deriving DecidableEq, Repr

/-- Modelled from the spec: the per-thread item allocator's store (§4.B,
`item_allocator.h` is absent from the sources).  Items are identified by
their index in the store; an entry `(id, ver)` in a block references item
`id` at expected version `ver`.  Acquisition hands out a fresh slot: in the
modelled sequential executions the reuse predicate (version even, i.e.
taken) only ever selects slots that behave exactly like fresh ones (their
old entries stay stale forever because versions grow monotonically), so
fresh allocation is observationally faithful. -/
abbrev Store := List Item

/-- Modelled from the spec: an `(item-pointer, expected-version)` pair of a
block (§4.C, `block.h`). -/
structure Entry where
  id : Nat
  ver : Nat
deriving DecidableEq, Repr

/-- Reads an item cell; ids handed out by the allocator are always in
range, the default only keeps the function total. -/
def getItem (items : Store) (i : Nat) : Item :=
  items.getD i ⟨0, 0, 0⟩

/-- Modelled from the spec: `block::item_owned` — an entry is owned iff the
item's current version equals the expected version (§4.A, §4.C). -/
def entryOwned (items : Store) (e : Entry) : Bool :=
  (getItem items e.id).version == e.ver

/-- Key of the referenced item (`item_pair.first->key()`). -/
def entryKey (items : Store) (e : Entry) : Nat :=
  (getItem items e.id).key

/-- Modelled from the spec: `block<K, V>` (§4.C; `block_inl.h` is absent
from the sources, `block.h` is `src/unnamed/part_000`).  `pairs` is the
written range `[0, m_last)`, so `m_last = pairs.length`; `first` is
`m_first`, the lowest known live index; the capacity is `2 ^ pow`
(`m_power_of_2`). -/
structure Block where
  pow : Nat
  first : Nat
  pairs : List Entry
deriving DecidableEq, Repr

/-- The `m_last` field: number of slots written so far. -/
def Block.last (b : Block) : Nat := b.pairs.length

/-- The block capacity `2 ^ m_power_of_2`. -/
def Block.cap (b : Block) : Nat := 2 ^ b.pow

/-- Modelled from the spec: `block::size() = m_last - m_first` (§4.C). -/
def Block.size (b : Block) : Nat := b.last - b.first

/-- The owned (live) entries of the current contents `[first, last)`. -/
def Block.live (items : Store) (b : Block) : List Entry :=
  (b.pairs.drop b.first).filter (entryOwned items)

/-- Modelled from the spec: `block_storage::get_block(p)` returns an empty
used block of capacity `2 ^ p` (§4.D; `block_storage.h` is absent from the
sources).  Blocks are modelled as values, so the pool's free list and the
`used` flag have no observable effect; `set_unused` calls are recorded as
events where a claim mentions them. -/
def getBlock (p : Nat) : Block :=
  ⟨p, 0, []⟩

/-- Modelled from the spec: `block::insert` / `block::insert_tail` append
an entry at `m_last` (§4.C sorted-append). -/
def Block.insertE (b : Block) (e : Entry) : Block :=
  { b with pairs := b.pairs ++ [e] }

/-- Modelled from the spec: `block::peek_tail` iterates the contents from
`m_last` down to `m_first` and yields the first owned key (§4.C,
`block.h`). -/
def Block.peekTail (items : Store) (b : Block) : Option Nat :=
  ((b.pairs.drop b.first).reverse.find? (entryOwned items)).map (entryKey items)

/-- Result of a successful `block::peek`: the key, item and expected
version of the minimal live entry (`block<K, V>::peek_t`). -/
structure PeekInfo where
  key : Nat
  id : Nat
  ver : Nat
deriving DecidableEq, Repr

/-- Number of leading non-owned entries of a list (the stale front that
`block::peek` skips). -/
def peekAdv (items : Store) : List Entry → Nat
  | [] => 0
  | e :: es => if entryOwned items e then 0 else peekAdv items es + 1

/-- Modelled from the spec: `block::peek` scans from `m_first`, advances
`m_first` past stale entries, and returns the minimal live entry or empty
(§4.C). -/
def Block.peekB (items : Store) (b : Block) : Block × Option PeekInfo :=
  ({ b with first := b.first + peekAdv items (b.pairs.drop b.first) },
   ((b.pairs.drop b.first).drop (peekAdv items (b.pairs.drop b.first))).head?.map
     (fun e => ⟨entryKey items e, e.id, e.ver⟩))

/-- Fueled sorted merge of two entry lists by key.  The fuel only drives
structural recursion; with fuel at least the sum of lengths it is the
textbook merge, and its length and membership facts hold for every fuel. -/
def mergeEntriesF (items : Store) : Nat → List Entry → List Entry → List Entry
  | 0, l, r => l ++ r
  | _ + 1, [], r => r
  | _ + 1, a :: l, [] => a :: l
  | fuel + 1, a :: l, b :: r =>
    if entryKey items a ≤ entryKey items b then
      a :: mergeEntriesF items fuel l (b :: r)
    else
      b :: mergeEntriesF items fuel (a :: l) r

/-- Sorted merge of two entry lists by key. -/
def mergeEntries (items : Store) (l r : List Entry) : List Entry :=
  mergeEntriesF items (l.length + r.length) l r

/-- Modelled from the spec: `block::merge(lhs, rhs)` produces the sorted
union of the live entries of both inputs, skipping stale entries and
preserving the `(item, version)` pairs (§4.C).  `p` is the capacity class
of the freshly acquired destination block. -/
def Block.mergeB (items : Store) (p : Nat) (lhs rhs : Block) : Block :=
  ⟨p, 0, mergeEntries items (lhs.live items) (rhs.live items)⟩

/-- Modelled from the spec: `block::copy(that)` bulk-copies the live
entries of `that`, skipping stale ones and tightening the array (§4.C). -/
def Block.copyB (items : Store) (p : Nat) (that : Block) : Block :=
  ⟨p, 0, that.live items⟩

/-- Local state of `dist_lsm_local<K, V, Rlx>` (`dist_lsm.h`,
`dist_lsm_inl.h`): the item store (allocator), the backing block array
`m_blocks` (only slots ever written are listed; reading an unwritten slot
dereferences the constructor's `nullptr` and is undefined behaviour), the
live count `m_size`, and the `m_cached_best` peek record (`none` models
both `EMPTY()` and a nulled item pointer). -/
structure DState where
  items : Store
  blocks : List Block
  msize : Nat
  cached : Option PeekInfo
deriving DecidableEq, Repr

/-- The freshly constructed `dist_lsm_local`. -/
def dInit : DState :=
  ⟨[], [], 0, none⟩

/-- The `peek_t::taken()` test: the referenced item's version moved on. -/
def cachedTaken (items : Store) (c : PeekInfo) : Bool :=
  (getItem items c.id).version != c.ver

/-- Writes backing-array slot `i` (`m_blocks[i] = b`): slots are
materialised on first write. -/
def writeSlot (bs : List Block) (i : Nat) (b : Block) : List Block :=
  if i < bs.length then bs.set i b else bs ++ [b]

/-- Record of one iteration of the cascading merge loop of
`dist_lsm_local::merge_insert`: sizes, capacity and size class of the
incoming (`insert_block`) and predecessor (`other_block`) blocks at the
moment of the merge, and the class and resulting size of the merged
block. -/
structure MStep where
  insPow : Nat
  insSize : Nat
  othSize : Nat
  mergedPow : Nat
  mergedSize : Nat
deriving DecidableEq, Repr

/-- Result of the cascading merge loop of `merge_insert`: the final
`insert_block`, the live blocks that were not consumed (still in reverse
order, i.e. smallest capacity first), the superseded insert blocks
(released inside the loop), the consumed predecessor blocks, and the
per-iteration trace. -/
structure CascadeRes where
  fin : Block
  rest : List Block
  interm : List Block
  consumed : List Block
  trace : List MStep
deriving DecidableEq, Repr

/-- The cascading same-size merge loop of `dist_lsm_local::merge_insert`
(`dist_lsm_inl.h` lines 264-289), walking the live blocks from
`m_blocks[m_size - 1]` downwards, i.e. over the reversed live list: while
the predecessor block has the same capacity as the incoming block, acquire
a block of class `power_of_2` or `power_of_2 + 1` (depending on whether
both fit into the current capacity) and merge both into it. -/
def cascade (items : Store) : List Block → Block → CascadeRes
  | [], ins => ⟨ins, [], [], [], []⟩
  | other :: rev, ins =>
    if other.cap = ins.cap then
      let mPow := if ins.size + other.size ≤ ins.cap then ins.pow else ins.pow + 1
      let merged := Block.mergeB items mPow ins other
      let r := cascade items rev merged
      ⟨r.fin, r.rest, ins :: r.interm, other :: r.consumed,
        ⟨ins.pow, ins.size, other.size, mPow, merged.size⟩ :: r.trace⟩
    else ⟨ins, other :: rev, [], [], []⟩

/-- Result of `merge_insert`: the new local state, the block passed to
`shared_lsm::insert` (if any), the blocks released via `set_unused`
(duplicate releases collapsed), and the cascade trace. -/
structure MIRes where
  s : DState
  published : Option Block
  released : List Block
  trace : List MStep
deriving DecidableEq, Repr

/-- The tail of `dist_lsm_local::merge_insert` (`dist_lsm_inl.h` lines
259-315): run the cascade, then either publish the merged block into the
shared LSM (when a handle was supplied and the merged size reaches
`(Rlx + 1) / 2`) and keep only the unconsumed head of the list, or store
the merged block at `m_blocks[other_ix + 1]`; finally release the
superseded and consumed blocks. -/
def mergeInsert (rlx : Nat) (hasSlsm : Bool) (s : DState) (nb : Block) : MIRes :=
  if hasSlsm ∧ (rlx + 1) / 2 ≤
      (cascade s.items (s.blocks.take s.msize).reverse nb).fin.size then
    ⟨{ s with msize := (cascade s.items (s.blocks.take s.msize).reverse nb).rest.length },
      some (cascade s.items (s.blocks.take s.msize).reverse nb).fin,
      (cascade s.items (s.blocks.take s.msize).reverse nb).interm ++
        [(cascade s.items (s.blocks.take s.msize).reverse nb).fin] ++
        (cascade s.items (s.blocks.take s.msize).reverse nb).consumed,
      (cascade s.items (s.blocks.take s.msize).reverse nb).trace⟩
  else
    ⟨{ s with
        blocks := writeSlot s.blocks
          (cascade s.items (s.blocks.take s.msize).reverse nb).rest.length
          (cascade s.items (s.blocks.take s.msize).reverse nb).fin,
        msize := (cascade s.items (s.blocks.take s.msize).reverse nb).rest.length + 1 },
      none,
      (cascade s.items (s.blocks.take s.msize).reverse nb).interm ++
        (cascade s.items (s.blocks.take s.msize).reverse nb).consumed,
      (cascade s.items (s.blocks.take s.msize).reverse nb).trace⟩

/-- The slow path of `dist_lsm_local::insert`: allocate a capacity-1 block,
insert the fresh item and `merge_insert` it. -/
def dInsertSlow (rlx : Nat) (hasSlsm : Bool) (s : DState) (e : Entry) : MIRes :=
  mergeInsert rlx hasSlsm s ((getBlock 0).insertE e)

/-- The item-allocation and `m_cached_best` update prefix of
`dist_lsm_local::insert` (`dist_lsm_inl.h` lines 204-232): acquire a fresh
item slot, store key and value and raise the version to 1 (odd, live),
then raise the cached best to the new item if it wins, or clear a taken
cached best. -/
def dInsertState (s : DState) (k v : Nat) : DState :=
  { s with
    items := s.items ++ [⟨k, v, 1⟩],
    cached :=
      match s.cached with
      | none => some (⟨k, s.items.length, 1⟩ : PeekInfo)
      | some c =>
        if k < c.key then some (⟨k, s.items.length, 1⟩ : PeekInfo)
        else if cachedTaken (s.items ++ [⟨k, v, 1⟩]) c then none else some c }

/-- Model of `dist_lsm_local::insert(key, val, slsm)` (`dist_lsm_inl.h`
lines 204-257): after the `dInsertState` prefix, either tail-append into
the last block (if it has room and its tail key is at most the new key) or
take the `merge_insert` slow path.  `none` marks the undefined read of an
unwritten `m_blocks` slot (unreachable from well-formed states). -/
def dInsert (rlx : Nat) (hasSlsm : Bool) (s : DState) (k v : Nat) : Option MIRes :=
  if s.msize = 0 then
    some (dInsertSlow rlx hasSlsm (dInsertState s k v) ⟨s.items.length, 1⟩)
  else
    match s.blocks[s.msize - 1]? with
    | none => none
    | some tail =>
      if tail.last < tail.cap then
        match Block.peekTail (dInsertState s k v).items tail with
        | some tk =>
          if tk ≤ k then
            some ⟨{ dInsertState s k v with
                blocks := s.blocks.set (s.msize - 1)
                  (tail.insertE ⟨s.items.length, 1⟩) },
              none, [], []⟩
          else some (dInsertSlow rlx hasSlsm (dInsertState s k v) ⟨s.items.length, 1⟩)
        | none => some (dInsertSlow rlx hasSlsm (dInsertState s k v) ⟨s.items.length, 1⟩)
      else some (dInsertSlow rlx hasSlsm (dInsertState s k v) ⟨s.items.length, 1⟩)

/-- The `memmove` removing slot `ix` from the live range `[0, msize)` of
the backing array (`dist_lsm_inl.h` lines 355-357 and 382-384): slots
`[ix, msize - 1)` take the value of their right neighbour; the slot at
`msize - 1` keeps its old value (it becomes a stale duplicate), and slots
at and beyond `msize` are untouched. -/
def shiftRemove (bs : List Block) (ix m : Nat) : List Block :=
  ((bs.take m).eraseIdx ix) ++ bs.drop (m - 1)

/-- Outcome of the inner `while` loop of `dist_lsm_local::peek`: either the
`goto outer` re-entry (after removing an empty block) or normal loop exit
with the final candidate. -/
inductive WRes where
  | goOuter (blocks : List Block) (msize : Nat)
  | done (blocks : List Block) (msize : Nat) (cand : Option PeekInfo)
deriving DecidableEq, Repr

/-- The shrink-and-maybe-merge part of the inner `while` loop of
`dist_lsm_local::peek` (`dist_lsm_inl.h` lines 364-386): copy the live
entries of `i` into a block of the next lower size class, and if the new
capacity matches the right neighbour's, merge with it and remove the
neighbour with `memmove`.  Reading a never-written slot is undefined
behaviour (`none`); the neighbour slot is only dereferenced after the
`next_ix < m_size` test, matching the source's short-circuit. -/
def shrinkStep (items : Store) (blocks : List Block) (msize ix : Nat) (i : Block) :
    Option (List Block × Nat × Block) :=
  if ix + 1 < msize then
    match blocks[ix + 1]? with
    | none => none
    | some nxt =>
      if (Block.copyB items (i.pow - 1) i).cap = nxt.cap then
        some (shiftRemove blocks (ix + 1) msize, msize - 1,
          Block.mergeB items ((Block.copyB items (i.pow - 1) i).pow + 1)
            (Block.copyB items (i.pow - 1) i) nxt)
      else some (blocks, msize, Block.copyB items (i.pow - 1) i)
  else some (blocks, msize, Block.copyB items (i.pow - 1) i)

/-- The inner `while (i->size() <= i->capacity() / 2)` loop of
`dist_lsm_local::peek` (`dist_lsm_inl.h` lines 351-396) for the block `i`
currently stored at slot `ix`.  An empty block is removed with `memmove`
and control re-enters at the label `outer`; the `memmove` byte count is
`sizeof(m_blocks[0]) * (m_size - ix - 1)`, which underflows (undefined
behaviour, modelled as `none`) whenever `m_size ≤ ix` — which is exactly
the state after removing the last live block, since `goto outer` skips the
loop condition `ix < m_size`.  Otherwise the block is shrunk via
`shrinkStep` and the loop re-checks the resulting block after peeking
it. -/
def whileStep (items : Store) :
    Nat → List Block → Nat → Nat → Block → Option PeekInfo → Option WRes
  | 0, _, _, _, _, _ => none
  | fuel + 1, blocks, msize, ix, i, cand =>
    if i.size ≤ i.cap / 2 then
      if i.size = 0 then
        if msize ≤ ix then none
        else some (.goOuter (shiftRemove blocks ix msize) (msize - 1))
      else
        match shrinkStep items blocks msize ix i with
        | none => none
        | some (blocks2, msize2, nb2) =>
          whileStep items fuel (blocks2.set ix (Block.peekB items nb2).1) msize2 ix
            (Block.peekB items nb2).1 (Block.peekB items nb2).2
    else some (.done blocks msize cand)

/-- The body of the `for` loop of `dist_lsm_local::peek` from the label
`outer` (`dist_lsm_inl.h` lines 347-396): read the slot (`none` if it was
never written — the constructor's `nullptr` would be dereferenced), peek
it, run the inner `while` loop, and on `goto outer` re-enter without
re-checking `ix < m_size`. -/
def outerStep (items : Store) :
    Nat → List Block → Nat → Nat → Option (List Block × Nat × Option PeekInfo)
  | 0, _, _, _ => none
  | fuel + 1, blocks, msize, ix =>
    match blocks[ix]? with
    | none => none
    | some i =>
      let pk := Block.peekB items i
      let blocks2 := blocks.set ix pk.1
      match whileStep items (fuel + 1) blocks2 msize ix pk.1 pk.2 with
      | none => none
      | some (.goOuter b3 m3) => outerStep items fuel b3 m3 ix
      | some (.done b3 m3 c3) => some (b3, m3, c3)

/-- The best-candidate update of `dist_lsm_local::peek` (`dist_lsm_inl.h`
lines 398-400). -/
def bestUpd (best cand : Option PeekInfo) : Option PeekInfo :=
  match best, cand with
  | none, c => c
  | some b, some c => if c.key < b.key then some c else some b
  | some b, none => some b

/-- The `for (size_t ix = 0; ix < m_size; ix++)` scan of
`dist_lsm_local::peek`. -/
def scanFor (items : Store) :
    Nat → List Block → Nat → Nat → Option PeekInfo →
    Option (List Block × Nat × Option PeekInfo)
  | 0, _, _, _, _ => none
  | fuel + 1, blocks, msize, ix, best =>
    if msize ≤ ix then some (blocks, msize, best)
    else
      match outerStep items (fuel + 1) blocks msize ix with
      | none => none
      | some (b2, m2, cand) => scanFor items fuel b2 m2 (ix + 1) (bestUpd best cand)

/-- The full scan of `dist_lsm_local::peek` (everything after the
cached-best short-circuit), ending with the `m_cached_best = best`
write-back. -/
def dlsmScan (fuel : Nat) (s : DState) : Option (DState × Option PeekInfo) :=
  match scanFor s.items fuel s.blocks s.msize 0 none with
  | none => none
  | some (b, m, best) => some ({ s with blocks := b, msize := m, cached := best }, best)

/-- Model of `dist_lsm_local::peek(best)` (`dist_lsm_inl.h` lines
336-404): short-circuit through a live `m_cached_best`, otherwise run the
full scan. -/
def dlsmPeek (fuel : Nat) (s : DState) : Option (DState × Option PeekInfo) :=
  match s.cached with
  | some c => if cachedTaken s.items c then dlsmScan fuel s else some (s, some c)
  | none => dlsmScan fuel s

/-- Model of `dist_lsm_local::spy(parent)` (`dist_lsm_inl.h` lines
406-451): the body is `(void)parent; return 0;`, the former implementation
being compiled out by `#if 0`.  It returns 0 and does not touch the
state. -/
def spyM (s : DState) : Nat × DState :=
  (0, s)

/-- The `item::take` version CAS (§4.A): on a version match the version is
bumped and the value copied out; on a mismatch nothing is written.
Modelled from the spec (`item.h` is absent from the sources). -/
def takeItem (items : Store) (id ver : Nat) : Option (Nat × Store) :=
  let it := getItem items id
  if it.version = ver then some (it.val, items.set id { it with version := ver + 1 })
  else none

/-- The take attempt at the end of `dist_lsm_local::delete_min`:
`best.m_item->take(best.m_version, val)`.  `interf` is the interference of
other threads between the peek and the CAS (the linearization window); it
is the identity in single-threaded executions. -/
def finishTake (interf : Store → Store) (s : DState) (best : Option PeekInfo) :
    Bool × Option Nat × DState :=
  match best with
  | none => (false, none, s)
  | some c =>
    let s2 : DState := { s with items := interf s.items }
    match takeItem s2.items c.id c.ver with
    | some (v, items2) => (true, some v, { s2 with items := items2 })
    | none => (false, none, s2)

/-- Model of `dist_lsm_local::delete_min(parent, val)` (`dist_lsm_inl.h`
lines 317-334): peek; if no candidate was found and `spy(parent) > 0`,
peek once more; if there is still no candidate return `false`; otherwise
attempt the single version CAS and return its result. -/
def deleteMin (fuel : Nat) (interf : Store → Store) (s : DState) :
    Option (Bool × Option Nat × DState) :=
  match dlsmPeek fuel s with
  | none => none
  | some (s1, best) =>
    match best with
    | some c => some (finishTake interf s1 (some c))
    | none =>
      let sp := spyM s1
      if 0 < sp.1 then
        match dlsmPeek fuel sp.2 with
        | none => none
        | some (s3, best2) => some (finishTake interf s3 best2)
      else some (finishTake interf sp.2 none)

/-- `delete_min` with the spy-and-retry branch removed, used to state that
the retry branch is dead code. -/
def deleteMinNoSpy (fuel : Nat) (interf : Store → Store) (s : DState) :
    Option (Bool × Option Nat × DState) :=
  match dlsmPeek fuel s with
  | none => none
  | some (s1, best) => some (finishTake interf s1 best)

/-- An operation on a `dist_lsm_local`: an insert (with or without a
shared-LSM handle), a `delete_min`, or a bare `peek`. -/
inductive DOp where
  | ins (k v : Nat) (hasSlsm : Bool)
  | del
  | doPeek
deriving DecidableEq, Repr

/-- One operation applied to a local state (single-threaded, so the
interference of `delete_min` is the identity). -/
def dStep (rlx fuel : Nat) (s : DState) : DOp → Option DState
  | .ins k v hs => (dInsert rlx hs s k v).map (·.s)
  | .del => (deleteMin fuel id s).map (·.2.2)
  | .doPeek => (dlsmPeek fuel s).map (·.1)

/-- Runs a sequence of operations from the freshly constructed state;
`none` marks a run that hits undefined behaviour (or exhausts fuel). -/
def dRun (rlx fuel : Nat) (ops : List DOp) : Option DState :=
  ops.foldlM (dStep rlx fuel) dInit

/-! ### The lazy block (`lazy_block.h`, `lazy_block_inl.h`)

Blocks handed to `lazy_block` come from the shared-LSM side and are read
through raw `m_item_pairs[i]` indexing, including slots at and beyond
`m_last`, so here a block is modelled with its full backing array: `pairs`
has length `capacity`, the slots in `[last, capacity)` being meaningless
junk.  Reading an index outside the allocation is undefined behaviour. -/

/-- A block as read by `lazy_block`: `pairs.length = 2 ^ pow` (the whole
allocation), `last` = `m_last`. -/
structure LBlock where
  pow : Nat
  last : Nat
  pairs : List Entry
deriving DecidableEq, Repr

/-- One `block_head` of `lazy_block`: the source block, the index of the
head entry and its key. -/
structure LHead where
  b : LBlock
  ix : Nat
  key : Nat
deriving DecidableEq, Repr

/-- The scan loop of `lazy_block::next_head`
(`while (!b->item_owned(b->m_item_pairs[i]) && i < last) i++;`,
`lazy_block_inl.h` lines 59-63).  Note the evaluation order of the
source: the slot is read before the bound test, so reading index
`pairs.length` (one past the allocation) is undefined behaviour
(`none`). -/
def nhScan (items : Store) (pairs : List Entry) (last : Nat) :
    Nat → Nat → Option Nat
  | 0, _ => none
  | fuel + 1, i =>
    match pairs[i]? with
    | none => none
    | some e =>
      if ¬ entryOwned items e ∧ i < last then nhScan items pairs last fuel (i + 1)
      else some i

/-- Model of `lazy_block::next_head(b, ix, head)` (`lazy_block_inl.h`
lines 53-73).  The outer `Option` is undefined behaviour; the inner one is
the boolean result.  The success test of the source compares `ix` (the
start index) against `b->last()`, not the scan position `i`. -/
def nextHead (fuel : Nat) (items : Store) (b : LBlock) (ix : Nat) :
    Option (Option LHead) :=
  match nhScan items b.pairs b.last fuel ix with
  | none => none
  | some i =>
    if ix < b.last then
      match b.pairs[i]? with
      | none => none
      | some e => some (some ⟨b, i, entryKey items e⟩)
    else some none

/-- Local state of a `lazy_block`: `m_power_of_2` and the heads gathered so
far (`m_heads[0..m_block_count)`). -/
structure LazyBlock where
  pow : Nat
  heads : List LHead
deriving DecidableEq, Repr

/-- Model of the `lazy_block` constructor (`lazy_block_inl.h` lines
20-30): record the block's size class and, if `next_head` finds a head,
store it. -/
def lazyNew (fuel : Nat) (items : Store) (b : LBlock) (bFirst : Nat) :
    Option LazyBlock :=
  match nextHead fuel items b bFirst with
  | none => none
  | some (some h) => some ⟨b.pow, [h]⟩
  | some none => some ⟨b.pow, []⟩

/-- The two assertions guarding `lazy_block::merge` (`lazy_block_inl.h`
lines 42-43): `m_block_count < MaxBlocks` and
`m_power_of_2 == b->power_of_2()`. -/
def lazyMergeAsserts (maxBlocks : Nat) (lb : LazyBlock) (b : LBlock) : Prop :=
  lb.heads.length < maxBlocks ∧ lb.pow = b.pow

instance (maxBlocks : Nat) (lb : LazyBlock) (b : LBlock) :
    Decidable (lazyMergeAsserts maxBlocks lb b) := by
  unfold lazyMergeAsserts; infer_instance

/-- Model of `lazy_block::merge(b, b_first)` (`lazy_block_inl.h` lines
37-51): assert, gather the block's head if it has one, and raise
`m_power_of_2` by one (doubling `m_capacity`).  `none` covers both a failed
assertion and undefined behaviour inside `next_head`. -/
def lazyMerge (fuel maxBlocks : Nat) (items : Store) (lb : LazyBlock)
    (b : LBlock) (bFirst : Nat) : Option LazyBlock :=
  if lazyMergeAsserts maxBlocks lb b then
    match nextHead fuel items b bFirst with
    | none => none
    | some (some h) => some ⟨lb.pow + 1, lb.heads ++ [h]⟩
    | some none => some ⟨lb.pow + 1, lb.heads⟩
  else none

/-- Constructs a `lazy_block` from the first block and merges the rest, as
the shared LSM does for a cascade of collisions. -/
def lazyOfBlocks (fuel maxBlocks : Nat) (items : Store) (b0 : LBlock)
    (rest : List (LBlock × Nat)) : Option LazyBlock :=
  match lazyNew fuel items b0 0 with
  | none => none
  | some lb => rest.foldlM (fun acc bf => lazyMerge fuel maxBlocks items acc bf.1 bf.2) lb

/-- Removes a minimal-key head from the list (the observable effect of the
`std::pop_heap` call on the min-heap of `block_head`s ordered by the
reversed key comparator; ties are broken towards the earlier element). -/
def popMin : List LHead → Option (LHead × List LHead)
  | [] => none
  | h :: hs =>
    match popMin hs with
    | none => some (h, [])
    | some (m, rest) => if h.key ≤ m.key then some (h, hs) else some (m, h :: rest)

/-- Result of `lazy_block::finalize`: either the single input block itself
(no allocation) or the entry sequence written into the freshly acquired
merge block, whose `m_last` is the sequence's length. -/
inductive FinRes where
  | orig (b : LBlock)
  | merged (pairs : List Entry)
deriving DecidableEq, Repr

/-- The main merge loop of `lazy_block::finalize` (`lazy_block_inl.h`
lines 89-100): while more than one head remains, pop the minimal head,
copy its entry into the output, and push the source block's next head. -/
def finLoop (items : Store) :
    Nat → List LHead → List Entry → Option (List LHead × List Entry)
  | 0, _, _ => none
  | fuel + 1, heads, out =>
    if heads.length ≤ 1 then some (heads, out)
    else
      match popMin heads with
      | none => none
      | some (h, rest) =>
        match h.b.pairs[h.ix]? with
        | none => none
        | some e =>
          match nextHead fuel items h.b (h.ix + 1) with
          | none => none
          | some (some h2) => finLoop items fuel (rest ++ [h2]) (out ++ [e])
          | some none => finLoop items fuel rest (out ++ [e])

/-- The trailing `do`-`while` of `lazy_block::finalize` (`lazy_block_inl.h`
lines 104-107): drain the remaining block. -/
def finTail (items : Store) :
    Nat → LHead → List Entry → Option (List Entry)
  | 0, _, _ => none
  | fuel + 1, h, out =>
    match h.b.pairs[h.ix]? with
    | none => none
    | some e =>
      match nextHead fuel items h.b (h.ix + 1) with
      | none => none
      | some (some h2) => finTail items fuel h2 (out ++ [e])
      | some none => some (out ++ [e])

/-- Model of `lazy_block::finalize(pool)` (`lazy_block_inl.h` lines
75-112): with a single input return it unchanged; otherwise acquire a
block of class `m_power_of_2` and run the heap-driven multi-way merge.
The `do`-`while` tail reads `m_heads[0]` unconditionally, which is
undefined when no head remains. -/
def lazyFinalize (fuel : Nat) (items : Store) (lb : LazyBlock) : Option FinRes :=
  if lb.heads.length = 1 then (lb.heads[0]?).map (fun h => .orig h.b)
  else
    match finLoop items fuel lb.heads [] with
    | none => none
    | some (heads, out) =>
      match heads[0]? with
      | none => none
      | some h =>
        match finTail items fuel h out with
        | none => none
        | some out2 => some (.merged out2)

/-! ### The benchmark interval tree (`interval_tree.h`,
`interval_tree_inl.h` of the 2015 benchmark utility) -/

/-- The `itree_t` node of the benchmark `interval_tree`: children, the key
interval `[k1, k2]`, the subtree element count `v`, the AVL height and the
allocator flag.  `leaf` is the null pointer. -/
inductive ITree where
  | leaf : ITree
  | node (l r : ITree) (k1 k2 v : Nat) (h : Nat) (inUse : Bool) : ITree
deriving DecidableEq, Repr

/-- The `interval_tree` state: its root pointer. -/
structure IntervalTree where
  root : ITree
deriving DecidableEq, Repr

/-- Model of `interval_tree::count_before(index)` (`interval_tree_inl.h`
lines 27-31): the body is `return index;` — a `const` method that ignores
the tree entirely. -/
def IntervalTree.count_before (_t : IntervalTree) (index : Nat) : Nat :=
  index

/-! ### Wellformedness predicates and basic block lemmas -/

/-- Structural wellformedness of a block: `m_first ≤ m_last` and
`m_last ≤ capacity`. -/
def BlockWf (b : Block) : Prop :=
  b.first ≤ b.pairs.length ∧ b.pairs.length ≤ 2 ^ b.pow

/-- All written entries of the block are owned (true of any freshly merged
or copied block while no concurrent take happens). -/
def AllOwned (items : Store) (b : Block) : Prop :=
  ∀ e ∈ b.pairs, entryOwned items e = true

/-- Every live slot of the backing array holds a wellformed block. -/
def SlotsWf (bs : List Block) (m : Nat) : Prop :=
  ∀ j b, j < m → bs[j]? = some b → BlockWf b

/-- The live slots have strictly decreasing size classes. -/
def DecPows (bs : List Block) (m : Nat) : Prop :=
  ∀ i j bi bj, i < j → j < m → bs[i]? = some bi → bs[j]? = some bj → bj.pow < bi.pow

/-- The live slots below `k` are more than half full. -/
def FrontGt (bs : List Block) (m k : Nat) : Prop :=
  ∀ j b, j < k → j < m → bs[j]? = some b → b.cap / 2 < b.size

theorem mergeEntriesF_length (items : Store) :
    ∀ (f : Nat) (l r : List Entry),
      (mergeEntriesF items f l r).length = l.length + r.length := by
  intro f
  induction f with
  | zero => intro l r; simp [mergeEntriesF]
  | succ f ih =>
    intro l r
    match l, r with
    | [], r => simp [mergeEntriesF]
    | a :: l, [] => simp [mergeEntriesF]
    | a :: l, b :: r =>
      unfold mergeEntriesF
      split
      · simp only [List.length_cons, ih]
        simp [Nat.add_assoc, Nat.add_comm, Nat.add_left_comm]
      · simp only [List.length_cons, ih]
        simp [Nat.add_assoc, Nat.add_comm, Nat.add_left_comm]

theorem mergeEntriesF_mem (items : Store) :
    ∀ (f : Nat) (l r : List Entry) (e : Entry),
      e ∈ mergeEntriesF items f l r → e ∈ l ∨ e ∈ r := by
  intro f
  induction f with
  | zero => intro l r e h; simpa [mergeEntriesF] using List.mem_append.mp h
  | succ f ih =>
    intro l r e h
    match l, r with
    | [], r => right; simpa [mergeEntriesF] using h
    | a :: l, [] => left; simpa [mergeEntriesF] using h
    | a :: l, b :: r =>
      unfold mergeEntriesF at h
      split at h
      · rcases List.mem_cons.mp h with h1 | h1
        · exact Or.inl (by simp [h1])
        · rcases ih l (b :: r) e h1 with h2 | h2
          · exact Or.inl (List.mem_cons_of_mem _ h2)
          · exact Or.inr h2
      · rcases List.mem_cons.mp h with h1 | h1
        · exact Or.inr (by simp [h1])
        · rcases ih (a :: l) r e h1 with h2 | h2
          · exact Or.inl h2
          · exact Or.inr (List.mem_cons_of_mem _ h2)

theorem live_length_le (items : Store) (b : Block) :
    (b.live items).length ≤ b.size := by
  unfold Block.live Block.size Block.last
  calc ((b.pairs.drop b.first).filter (entryOwned items)).length
      ≤ (b.pairs.drop b.first).length := List.length_filter_le _ _
    _ = b.pairs.length - b.first := List.length_drop _ _

theorem live_mem_owned (items : Store) (b : Block) (e : Entry)
    (h : e ∈ b.live items) : entryOwned items e = true :=
  (List.mem_filter.mp h).2

/-- A block whose entries are all owned and whose `first` is 0 has its
whole written range live. -/
theorem live_eq_pairs (items : Store) (b : Block)
    (h0 : b.first = 0) (ho : AllOwned items b) : b.live items = b.pairs := by
  unfold Block.live
  rw [h0, List.drop_zero]
  exact List.filter_eq_self.mpr ho

theorem mergeB_pairs_length (items : Store) (p : Nat) (lhs rhs : Block) :
    (Block.mergeB items p lhs rhs).pairs.length =
      (lhs.live items).length + (rhs.live items).length := by
  unfold Block.mergeB mergeEntries
  exact mergeEntriesF_length items _ _ _

theorem mergeB_allOwned (items : Store) (p : Nat) (lhs rhs : Block) :
    AllOwned items (Block.mergeB items p lhs rhs) := by
  intro e he
  unfold Block.mergeB mergeEntries at he
  rcases mergeEntriesF_mem items _ _ _ e he with h | h
  · exact live_mem_owned items lhs e h
  · exact live_mem_owned items rhs e h

theorem copyB_allOwned (items : Store) (p : Nat) (src : Block) :
    AllOwned items (Block.copyB items p src) := by
  intro e he
  exact live_mem_owned items src e he

theorem peekAdv_le (items : Store) : ∀ l : List Entry, peekAdv items l ≤ l.length := by
  intro l
  induction l with
  | nil => simp [peekAdv]
  | cons e es ih =>
    unfold peekAdv
    split
    · simp
    · simpa using Nat.succ_le_succ ih

theorem peekAdv_head_owned (items : Store) :
    ∀ (l : List Entry) (e : Entry) (t : List Entry),
      l.drop (peekAdv items l) = e :: t → entryOwned items e = true := by
  intro l
  induction l with
  | nil => intro e t h; simp [peekAdv] at h
  | cons a as ih =>
    intro e t h
    unfold peekAdv at h
    split at h
    · rename_i ho
      rw [List.drop_zero] at h
      cases h
      exact ho
    · rw [List.drop_succ_cons] at h
      exact ih e t h

/-- The state component of `block::peek`: only `m_first` moves. -/
theorem peekB_fst (items : Store) (b : Block) :
    (b.peekB items).1 =
      { b with first := b.first + peekAdv items (b.pairs.drop b.first) } :=
  rfl

theorem peekB_fst_wf (items : Store) (b : Block) (hwf : BlockWf b) :
    BlockWf (b.peekB items).1 := by
  rw [peekB_fst]
  have h := peekAdv_le items (b.pairs.drop b.first)
  rw [List.length_drop] at h
  obtain ⟨h1, h2⟩ := hwf
  exact ⟨by simp only []; omega, by simpa using h2⟩

/-- When `peek` finds no candidate the block has been scanned empty. -/
theorem peekB_none_size (items : Store) (b : Block)
    (h : (b.peekB items).2 = none) : (b.peekB items).1.size = 0 := by
  unfold Block.peekB at h ⊢
  simp only [Option.map_eq_none'] at h
  have hnil : (b.pairs.drop b.first).drop (peekAdv items (b.pairs.drop b.first)) = [] :=
    List.head?_eq_none_iff.mp h
  simp only [Block.size, Block.last]
  have hlen : ((b.pairs.drop b.first).drop
      (peekAdv items (b.pairs.drop b.first))).length = 0 := by rw [hnil]; rfl
  rw [List.length_drop, List.length_drop] at hlen
  omega

/-- When `peek` finds a candidate the block still has contents and its
`first` entry is owned, so a subsequent `copy` keeps at least one entry. -/
theorem peekB_some_live (items : Store) (b : Block) (c : PeekInfo)
    (h : (b.peekB items).2 = some c) :
    0 < ((b.peekB items).1.live items).length := by
  unfold Block.peekB at h ⊢
  rcases hd : (b.pairs.drop b.first).drop (peekAdv items (b.pairs.drop b.first)) with
    _ | ⟨e, t⟩
  · rw [hd] at h; cases h
  · simp only [Block.live]
    have hdrop : b.pairs.drop (b.first + peekAdv items (b.pairs.drop b.first)) =
        e :: t := by
      rw [← hd, List.drop_drop]
    rw [hdrop]
    have ho : entryOwned items e = true := peekAdv_head_owned items _ e t hd
    simp [List.filter_cons, ho]

/-! ### Backing-array lemmas -/

theorem writeSlot_length (bs : List Block) (i : Nat) (b : Block) :
    (writeSlot bs i b).length =
      if i < bs.length then bs.length else bs.length + 1 := by
  unfold writeSlot
  split <;> simp

theorem writeSlot_get (bs : List Block) (i : Nat) (b : Block) (j : Nat)
    (hi : i ≤ bs.length) :
    (writeSlot bs i b)[j]? = if j = i then some b else bs[j]? := by
  unfold writeSlot
  rcases Nat.lt_or_ge i bs.length with hlt | hge
  · rw [if_pos hlt, List.getElem?_set]
    by_cases hji : j = i
    · subst hji; simp [hlt]
    · rw [if_neg (fun h => hji h.symm), if_neg hji]
  · have hei : i = bs.length := Nat.le_antisymm hi hge
    subst hei
    rw [if_neg (Nat.lt_irrefl _)]
    by_cases hji : j = bs.length
    · subst hji
      simp [List.getElem?_concat_length]
    · rw [if_neg hji]
      rcases Nat.lt_or_ge j bs.length with hj | hj
      · rw [List.getElem?_append_left hj]
      · rw [List.getElem?_eq_none hj,
          List.getElem?_eq_none (by rw [List.length_append]; simp; omega)]

theorem shiftRemove_length (bs : List Block) (ix m : Nat)
    (hm : m ≤ bs.length) (hi : ix < m) :
    (shiftRemove bs ix m).length = bs.length := by
  unfold shiftRemove
  rw [List.length_append, List.length_eraseIdx, List.length_take, List.length_drop,
    Nat.min_eq_left hm, if_pos hi]
  omega

theorem shiftRemove_get (bs : List Block) (ix m j : Nat)
    (hm : m ≤ bs.length) (hi : ix < m) :
    (shiftRemove bs ix m)[j]? =
      if ix ≤ j ∧ j + 1 < m then bs[j + 1]? else bs[j]? := by
  unfold shiftRemove
  have hlt : (List.take m bs).length = m := by rw [List.length_take]; omega
  have hixlt : ix < (List.take m bs).length := by omega
  have herlen : ((List.take m bs).eraseIdx ix).length = m - 1 := by
    rw [List.length_eraseIdx, if_pos hixlt, hlt]
  rw [List.getElem?_append]
  rcases Nat.lt_or_ge j (m - 1) with hj | hj
  · rw [if_pos (by omega), List.getElem?_eraseIdx]
    by_cases hjx : j < ix
    · rw [if_pos hjx, if_neg (by omega), List.getElem?_take, if_pos (by omega)]
    · rw [if_neg hjx, if_pos (by omega), List.getElem?_take, if_pos (by omega)]
  · rw [if_neg (by omega), herlen, List.getElem?_drop]
    rw [if_neg (by omega)]
    congr 1
    omega

theorem pow_eq_of_cap_eq {a b : Nat} (h : 2 ^ a = 2 ^ b) : a = b :=
  Nat.pow_right_injective (by norm_num) h

theorem pow_pos_of_half (b : Block) (hnz : b.size ≠ 0) (hsm : b.size ≤ b.cap / 2) :
    1 ≤ b.pow := by
  by_contra hp
  have hb0 : b.pow = 0 := by omega
  rw [Block.cap, hb0] at hsm
  simp at hsm
  omega

theorem two_pow_div_two {p : Nat} (hp : 1 ≤ p) : 2 ^ p / 2 = 2 ^ (p - 1) := by
  rcases Nat.exists_eq_add_of_le hp with ⟨q, hq⟩
  subst hq
  rw [Nat.add_comm, Nat.pow_succ, Nat.mul_div_cancel _ (by norm_num)]
  congr 1

/-- The shrunk copy of a half-empty block is wellformed and all-owned. -/
theorem copyB_shrink_wf (items : Store) (i : Block)
    (hnz : i.size ≠ 0) (hsm : i.size ≤ i.cap / 2) :
    BlockWf (Block.copyB items (i.pow - 1) i) := by
  refine ⟨by simp [Block.copyB], ?_⟩
  have h1 : (i.live items).length ≤ i.size := live_length_le items i
  have hp : 1 ≤ i.pow := pow_pos_of_half i hnz hsm
  have h2 : i.size ≤ 2 ^ (i.pow - 1) := by
    rw [← two_pow_div_two hp]
    exact hsm
  simpa [Block.copyB] using le_trans h1 h2

/-- Removing live slot `ix` preserves the scan predicates. -/
theorem shiftRemove_preds (blocks : List Block) (msize ix : Nat)
    (hm : msize ≤ blocks.length) (hix : ix < msize)
    (hwf : SlotsWf blocks msize) (hdec : DecPows blocks msize)
    (hfg : FrontGt blocks msize ix) :
    SlotsWf (shiftRemove blocks ix msize) (msize - 1) ∧
    DecPows (shiftRemove blocks ix msize) (msize - 1) ∧
    FrontGt (shiftRemove blocks ix msize) (msize - 1) ix := by
  have hget := fun j => shiftRemove_get blocks ix msize j hm hix
  refine ⟨?_, ?_, ?_⟩
  · intro j b hj hb
    rw [hget j] at hb
    split at hb
    · exact hwf (j + 1) b (by omega) hb
    · exact hwf j b (by omega) hb
  · intro a c ba bc hac hcm ha hc
    rw [hget a] at ha
    rw [hget c] at hc
    split at ha <;> split at hc
    · exact hdec (a + 1) (c + 1) ba bc (by omega) (by omega) ha hc
    · rename_i h1 h2
      exact absurd ⟨by omega, by omega⟩ h2
    · exact hdec a (c + 1) ba bc (by omega) (by omega) ha hc
    · rename_i h1 h2
      have hcx : c < ix := by
        rcases Decidable.em (ix ≤ c) with h | h
        · exact absurd ⟨h, by omega⟩ h2
        · omega
      exact hdec a c ba bc hac (by omega) ha hc
  · intro j b hj hjm hb
    rw [hget j] at hb
    rw [if_neg (by omega)] at hb
    exact hfg j b hj (by omega) hb

/-- Specification of `shrinkStep` followed by writing the peeked result
back into slot `ix`: the scan predicates are preserved and the size class
at `ix` never rises above the block's previous class. -/
theorem shrinkStep_spec (items : Store) (blocks : List Block) (msize ix : Nat)
    (i : Block) (b2 : List Block) (m2 : Nat) (nb2 : Block)
    (h : shrinkStep items blocks msize ix i = some (b2, m2, nb2))
    (hm : msize ≤ blocks.length)
    (hix : blocks[ix]? = some i)
    (hwf : SlotsWf blocks msize)
    (hdec : DecPows blocks msize)
    (hfg : FrontGt blocks msize ix)
    (hsm : i.size ≤ i.cap / 2)
    (hnz : i.size ≠ 0) :
    m2 ≤ msize ∧ b2.length = blocks.length ∧ ix < b2.length ∧
    SlotsWf (b2.set ix (Block.peekB items nb2).1) m2 ∧
    DecPows (b2.set ix (Block.peekB items nb2).1) m2 ∧
    FrontGt (b2.set ix (Block.peekB items nb2).1) m2 ix := by
  have hixlen : ix < blocks.length := by
    rcases List.getElem?_eq_some.mp hix with ⟨hl, _⟩
    exact hl
  have hp1 : 1 ≤ i.pow := pow_pos_of_half i hnz hsm
  have hcopywf : BlockWf (Block.copyB items (i.pow - 1) i) := copyB_shrink_wf items i hnz hsm
  have hcpow : (Block.copyB items (i.pow - 1) i).pow = i.pow - 1 := rfl
  unfold shrinkStep at h
  by_cases hlt : ix + 1 < msize
  · rw [if_pos hlt] at h
    cases hnxt : blocks[ix + 1]? with
    | none => rw [hnxt] at h; dsimp only at h; simp at h
    | some nxt =>
      rw [hnxt] at h
      dsimp only at h
      by_cases hcap : (Block.copyB items (i.pow - 1) i).cap = nxt.cap
      · -- merge with the right neighbour
        rw [if_pos hcap] at h
        cases h
        have hpows : i.pow - 1 = nxt.pow := by
          have h2 := hcap
          simp only [Block.cap, hcpow] at h2
          exact pow_eq_of_cap_eq h2
        have hnxtwf : BlockWf nxt := hwf (ix + 1) nxt hlt hnxt
        have hget := fun j => shiftRemove_get blocks (ix + 1) msize j hm hlt
        have hlen : (shiftRemove blocks (ix + 1) msize).length = blocks.length :=
          shiftRemove_length blocks (ix + 1) msize hm hlt
        have hmergedwf : BlockWf (Block.mergeB items
            ((Block.copyB items (i.pow - 1) i).pow + 1)
            (Block.copyB items (i.pow - 1) i) nxt) := by
          constructor
          · show (0 : Nat) ≤ _
            exact Nat.zero_le _
          · rw [mergeB_pairs_length]
            have h1 : ((Block.copyB items (i.pow - 1) i).live items).length ≤
                2 ^ (i.pow - 1) := by
              have ha := live_length_le items (Block.copyB items (i.pow - 1) i)
              have hsz : (Block.copyB items (i.pow - 1) i).size ≤ 2 ^ (i.pow - 1) := by
                have hc2 := hcopywf.2
                rw [hcpow] at hc2
                have hcf : (Block.copyB items (i.pow - 1) i).first = 0 := rfl
                simp only [Block.size, Block.last]
                omega
              omega
            have h2 : (nxt.live items).length ≤ 2 ^ (i.pow - 1) := by
              have ha := live_length_le items nxt
              have hb : nxt.size ≤ 2 ^ nxt.pow := by
                have hc2 := hnxtwf.2
                simp only [Block.size, Block.last]
                omega
              rw [← hpows] at hb
              omega
            have hgoalpow : (Block.mergeB items
                ((Block.copyB items (i.pow - 1) i).pow + 1)
                (Block.copyB items (i.pow - 1) i) nxt).pow =
                (Block.copyB items (i.pow - 1) i).pow + 1 := rfl
            have hsum : 2 ^ (i.pow - 1) + 2 ^ (i.pow - 1) =
                2 ^ ((Block.copyB items (i.pow - 1) i).pow + 1) := by
              rw [hcpow, ← Nat.two_mul, ← Nat.pow_succ']
            rw [hgoalpow]
            omega
        have hpowm : (Block.mergeB items ((Block.copyB items (i.pow - 1) i).pow + 1)
            (Block.copyB items (i.pow - 1) i) nxt).pow = i.pow := by
          have hr : (Block.mergeB items ((Block.copyB items (i.pow - 1) i).pow + 1)
              (Block.copyB items (i.pow - 1) i) nxt).pow = (i.pow - 1) + 1 := rfl
          omega
        have hsetget : ∀ j, ((shiftRemove blocks (ix + 1) msize).set ix
            (Block.peekB items (Block.mergeB items
              ((Block.copyB items (i.pow - 1) i).pow + 1)
              (Block.copyB items (i.pow - 1) i) nxt)).1)[j]? =
            if j = ix then some (Block.peekB items (Block.mergeB items
              ((Block.copyB items (i.pow - 1) i).pow + 1)
              (Block.copyB items (i.pow - 1) i) nxt)).1
            else (shiftRemove blocks (ix + 1) msize)[j]? := by
          intro j
          rw [List.getElem?_set]
          by_cases hj : j = ix
          · rw [if_pos hj, if_pos hj.symm, if_pos (by omega)]
          · rw [if_neg (fun hh => hj hh.symm), if_neg hj]
        have hpka : (Block.peekB items (Block.mergeB items
            ((Block.copyB items (i.pow - 1) i).pow + 1)
            (Block.copyB items (i.pow - 1) i) nxt)).1.pow = i.pow := by
          have hr : (Block.peekB items (Block.mergeB items
              ((Block.copyB items (i.pow - 1) i).pow + 1)
              (Block.copyB items (i.pow - 1) i) nxt)).1.pow = (i.pow - 1) + 1 := rfl
          omega
        refine ⟨by omega, hlen, by omega, ?_, ?_, ?_⟩
        · intro j b hj hb
          rw [hsetget j] at hb
          split at hb
          · cases hb
            exact peekB_fst_wf items _ hmergedwf
          · rw [hget j] at hb
            split at hb
            · exact hwf (j + 1) b (by omega) hb
            · exact hwf j b (by omega) hb
        · intro a c ba bc hac hcm ha hc
          rw [hsetget a] at ha
          rw [hsetget c] at hc
          split at ha
          · rename_i hax
            cases ha
            rw [if_neg (show ¬ c = ix by omega), hget c,
              if_pos (show ix + 1 ≤ c ∧ c + 1 < msize by omega)] at hc
            have hd2 := hdec (ix + 1) (c + 1) nxt bc (by omega) (by omega) hnxt hc
            rw [hpka]
            omega
          · rename_i hax
            split at hc
            · rename_i hcx
              cases hc
              rw [hget a, if_neg (by omega)] at ha
              have hd2 := hdec a ix ba i (by omega) (by omega) ha hix
              rw [hpka]
              omega
            · rename_i hcx
              rw [hget a] at ha
              rw [hget c] at hc
              split at ha <;> split at hc
              · exact hdec (a + 1) (c + 1) ba bc (by omega) (by omega) ha hc
              · rename_i u v
                exact absurd ⟨by omega, by omega⟩ v
              · exact hdec a (c + 1) ba bc (by omega) (by omega) ha hc
              · rename_i u v
                have hcix : c < ix + 1 := by
                  rcases Decidable.em (ix + 1 ≤ c) with hh | hh
                  · exact absurd ⟨hh, by omega⟩ v
                  · omega
                exact hdec a c ba bc hac (by omega) ha hc
        · intro j b hj hjm hb
          rw [hsetget j, if_neg (by omega), hget j, if_neg (by omega)] at hb
          exact hfg j b hj (by omega) hb
      · -- capacities differ: plain shrink
        rw [if_neg hcap] at h
        cases h
        have hsetget : ∀ j, (blocks.set ix
            (Block.peekB items (Block.copyB items (i.pow - 1) i)).1)[j]? =
            if j = ix then some (Block.peekB items (Block.copyB items (i.pow - 1) i)).1
            else blocks[j]? := by
          intro j
          rw [List.getElem?_set]
          by_cases hj : j = ix
          · rw [if_pos hj, if_pos hj.symm, if_pos (by omega)]
          · rw [if_neg (fun hh => hj hh.symm), if_neg hj]
        have hpka : (Block.peekB items (Block.copyB items (i.pow - 1) i)).1.pow =
            i.pow - 1 := rfl
        refine ⟨le_refl _, rfl, hixlen, ?_, ?_, ?_⟩
        · intro j b hj hb
          rw [hsetget j] at hb
          split at hb
          · cases hb
            exact peekB_fst_wf items _ hcopywf
          · exact hwf j b hj hb
        · intro a c ba bc hac hcm ha hc
          have hnxtpow : nxt.pow ≠ i.pow - 1 := by
            intro hh
            apply hcap
            simp only [Block.cap, hcpow, hh]
          rw [hsetget a] at ha
          rw [hsetget c] at hc
          split at ha
          · rename_i hax
            cases ha
            rw [if_neg (by omega)] at hc
            rw [hpka]
            have hnxtlt := hdec ix (ix + 1) i nxt (by omega) (by omega) hix hnxt
            rcases Nat.lt_or_ge (ix + 1) c with hcc | hcc
            · have hd2 := hdec (ix + 1) c nxt bc (by omega) hcm hnxt hc
              omega
            · have hceq : c = ix + 1 := by omega
              rw [hceq, hnxt] at hc
              cases hc
              omega
          · rename_i hax
            split at hc
            · rename_i hcx
              cases hc
              rw [hpka]
              have hd2 := hdec a ix ba i (by omega) (by omega) ha hix
              omega
            · exact hdec a c ba bc hac hcm ha hc
        · intro j b hj hjm hb
          rw [hsetget j, if_neg (by omega)] at hb
          exact hfg j b hj hjm hb
  · -- no right neighbour
    rw [if_neg hlt] at h
    cases h
    have hsetget : ∀ j, (blocks.set ix
        (Block.peekB items (Block.copyB items (i.pow - 1) i)).1)[j]? =
        if j = ix then some (Block.peekB items (Block.copyB items (i.pow - 1) i)).1
        else blocks[j]? := by
      intro j
      rw [List.getElem?_set]
      by_cases hj : j = ix
      · rw [if_pos hj, if_pos hj.symm, if_pos (by omega)]
      · rw [if_neg (fun hh => hj hh.symm), if_neg hj]
    have hpka : (Block.peekB items (Block.copyB items (i.pow - 1) i)).1.pow =
        i.pow - 1 := rfl
    refine ⟨le_refl _, rfl, hixlen, ?_, ?_, ?_⟩
    · intro j b hj hb
      rw [hsetget j] at hb
      split at hb
      · cases hb
        exact peekB_fst_wf items _ hcopywf
      · exact hwf j b hj hb
    · intro a c ba bc hac hcm ha hc
      rw [hsetget a] at ha
      rw [hsetget c] at hc
      split at ha
      · rename_i hax
        omega
      · split at hc
        · rename_i hcx
          cases hc
          rw [hpka]
          have hd2 := hdec a ix ba i (by omega) (by omega) ha hix
          omega
        · exact hdec a c ba bc hac hcm ha hc
    · intro j b hj hjm hb
      rw [hsetget j, if_neg (by omega)] at hb
      exact hfg j b hj hjm hb
/-- Specification of the inner `while` loop: a `goto outer` hands back a
strictly shrunk live range, normal exit leaves the processed slot more than
half full, and both preserve the scan predicates. -/
theorem whileStep_spec (items : Store) :
    ∀ (fuel : Nat) (blocks : List Block) (msize ix : Nat) (i : Block)
      (cand : Option PeekInfo) (res : WRes),
      whileStep items fuel blocks msize ix i cand = some res →
      msize ≤ blocks.length →
      blocks[ix]? = some i →
      SlotsWf blocks msize →
      DecPows blocks msize →
      FrontGt blocks msize ix →
      (∀ b3 m3, res = .goOuter b3 m3 →
        m3 < msize ∧ b3.length = blocks.length ∧
        SlotsWf b3 m3 ∧ DecPows b3 m3 ∧ FrontGt b3 m3 ix) ∧
      (∀ b3 m3 c3, res = .done b3 m3 c3 →
        m3 ≤ msize ∧ b3.length = blocks.length ∧
        SlotsWf b3 m3 ∧ DecPows b3 m3 ∧ FrontGt b3 m3 (ix + 1)) := by
  intro fuel
  induction fuel with
  | zero => intro blocks msize ix i cand res h; cases h
  | succ fuel ih =>
    intro blocks msize ix i cand res h hm hix hwf hdec hfg
    unfold whileStep at h
    by_cases hhalf : i.size ≤ i.cap / 2
    · rw [if_pos hhalf] at h
      by_cases hzero : i.size = 0
      · rw [if_pos hzero] at h
        by_cases hub : msize ≤ ix
        · rw [if_pos hub] at h; cases h
        · rw [if_neg hub] at h
          cases h
          have hpr := shiftRemove_preds blocks msize ix hm (by omega) hwf hdec hfg
          constructor
          · intro b3 m3 hres
            cases hres
            exact ⟨by omega, shiftRemove_length blocks ix msize hm (by omega),
              hpr.1, hpr.2.1, hpr.2.2⟩
          · intro b3 m3 c3 hres
            cases hres
      · rw [if_neg hzero] at h
        cases hss : shrinkStep items blocks msize ix i with
        | none => rw [hss] at h; dsimp only at h; simp at h
        | some t =>
          obtain ⟨b2, m2, nb2⟩ := t
          rw [hss] at h
          dsimp only at h
          have hsp := shrinkStep_spec items blocks msize ix i b2 m2 nb2 hss hm hix
            hwf hdec hfg hhalf hzero
          obtain ⟨hm2, hlen2, hixlen2, hwf2, hdec2, hfg2⟩ := hsp
          have hm2' : m2 ≤ (b2.set ix (Block.peekB items nb2).1).length := by
            rw [List.length_set]; omega
          have hix2 : (b2.set ix (Block.peekB items nb2).1)[ix]? =
              some (Block.peekB items nb2).1 :=
            List.getElem?_set_self hixlen2
          have hrec := ih (b2.set ix (Block.peekB items nb2).1) m2 ix
            (Block.peekB items nb2).1 (Block.peekB items nb2).2 res h hm2' hix2
            hwf2 hdec2 hfg2
          constructor
          · intro b3 m3 hres
            obtain ⟨ha1, ha2, ha3, ha4, ha5⟩ := hrec.1 b3 m3 hres
            rw [List.length_set] at ha2
            exact ⟨by omega, by omega, ha3, ha4, ha5⟩
          · intro b3 m3 c3 hres
            obtain ⟨ha1, ha2, ha3, ha4, ha5⟩ := hrec.2 b3 m3 c3 hres
            rw [List.length_set] at ha2
            exact ⟨by omega, by omega, ha3, ha4, ha5⟩
    · rw [if_neg hhalf] at h
      cases h
      constructor
      · intro b3 m3 hres; cases hres
      · intro b3 m3 c3 hres
        cases hres
        refine ⟨le_refl _, rfl, hwf, hdec, ?_⟩
        intro j b hj hjm hb
        rcases Nat.lt_or_ge j ix with hji | hji
        · exact hfg j b hji hjm hb
        · have hjx : j = ix := by omega
          rw [hjx, hix] at hb
          cases hb
          omega

/-- Specification of the `for` body from label `outer`: the scan predicates
are preserved and the processed prefix extends by one slot. -/
theorem outerStep_spec (items : Store) :
    ∀ (fuel : Nat) (blocks : List Block) (msize ix : Nat)
      (b3 : List Block) (m3 : Nat) (c3 : Option PeekInfo),
      outerStep items fuel blocks msize ix = some (b3, m3, c3) →
      msize ≤ blocks.length →
      SlotsWf blocks msize →
      DecPows blocks msize →
      FrontGt blocks msize ix →
      m3 ≤ msize ∧ b3.length = blocks.length ∧
      SlotsWf b3 m3 ∧ DecPows b3 m3 ∧ FrontGt b3 m3 (ix + 1) := by
  intro fuel
  induction fuel with
  | zero => intro blocks msize ix b3 m3 c3 h; cases h
  | succ fuel ih =>
    intro blocks msize ix b3 m3 c3 h hm hwf hdec hfg
    unfold outerStep at h
    cases hslot : blocks[ix]? with
    | none => rw [hslot] at h; cases h
    | some i =>
      rw [hslot] at h
      dsimp only at h
      have hixlen : ix < blocks.length := by
        rcases List.getElem?_eq_some.mp hslot with ⟨hl, _⟩
        exact hl
      have hsetget : ∀ j, (blocks.set ix (Block.peekB items i).1)[j]? =
          if j = ix then some (Block.peekB items i).1 else blocks[j]? := by
        intro j
        rw [List.getElem?_set]
        by_cases hj : j = ix
        · rw [if_pos hj, if_pos hj.symm, if_pos (by omega)]
        · rw [if_neg (fun hh => hj hh.symm), if_neg hj]
      have hm' : msize ≤ (blocks.set ix (Block.peekB items i).1).length := by
        rw [List.length_set]; omega
      have hix' : (blocks.set ix (Block.peekB items i).1)[ix]? =
          some (Block.peekB items i).1 :=
        List.getElem?_set_self hixlen
      have hwf' : SlotsWf (blocks.set ix (Block.peekB items i).1) msize := by
        intro j b hj hb
        rw [hsetget j] at hb
        split at hb
        · rename_i hj2
          cases hb
          exact peekB_fst_wf items i (hwf ix i (by omega) hslot)
        · exact hwf j b hj hb
      have hdec' : DecPows (blocks.set ix (Block.peekB items i).1) msize := by
        have hpowi : (Block.peekB items i).1.pow = i.pow := by rw [peekB_fst]
        intro a c ba bc hac hcm ha hc
        rw [hsetget a] at ha
        rw [hsetget c] at hc
        split at ha
        · rename_i hax
          cases ha
          rw [if_neg (by omega)] at hc
          rw [hpowi]
          exact hdec ix c i bc (by omega) hcm hslot hc
        · split at hc
          · rename_i hcx
            cases hc
            rw [hpowi]
            exact hdec a ix ba i (by omega) (by omega) ha hslot
          · exact hdec a c ba bc hac hcm ha hc
      have hfg' : FrontGt (blocks.set ix (Block.peekB items i).1) msize ix := by
        intro j b hj hjm hb
        rw [hsetget j, if_neg (by omega)] at hb
        exact hfg j b hj hjm hb
      cases hws : whileStep items (fuel + 1) (blocks.set ix (Block.peekB items i).1)
          msize ix (Block.peekB items i).1 (Block.peekB items i).2 with
      | none => rw [hws] at h; cases h
      | some res =>
        rw [hws] at h
        have hwsp := whileStep_spec items (fuel + 1)
          (blocks.set ix (Block.peekB items i).1) msize ix
          (Block.peekB items i).1 (Block.peekB items i).2 res hws hm' hix'
          hwf' hdec' hfg'
        cases res with
        | goOuter b4 m4 =>
          obtain ⟨ha1, ha2, ha3, ha4, ha5⟩ := hwsp.1 b4 m4 rfl
          rw [List.length_set] at ha2
          obtain ⟨hr1, hr2, hr3, hr4, hr5⟩ := ih b4 m4 ix b3 m3 c3 h (by omega)
            ha3 ha4 ha5
          exact ⟨by omega, by omega, hr3, hr4, hr5⟩
        | done b4 m4 c4 =>
          cases h
          obtain ⟨ha1, ha2, ha3, ha4, ha5⟩ := hwsp.2 b3 m3 c3 rfl
          rw [List.length_set] at ha2
          exact ⟨ha1, ha2, ha3, ha4, ha5⟩

/-- Specification of the whole `for` scan of `peek`: on normal return every
remaining live block is more than half full and the structural predicates
hold. -/
theorem scanFor_spec (items : Store) :
    ∀ (fuel : Nat) (blocks : List Block) (msize ix : Nat) (best : Option PeekInfo)
      (b3 : List Block) (m3 : Nat) (c3 : Option PeekInfo),
      scanFor items fuel blocks msize ix best = some (b3, m3, c3) →
      msize ≤ blocks.length →
      SlotsWf blocks msize →
      DecPows blocks msize →
      FrontGt blocks msize ix →
      m3 ≤ b3.length ∧ SlotsWf b3 m3 ∧ DecPows b3 m3 ∧ FrontGt b3 m3 m3 := by
  intro fuel
  induction fuel with
  | zero => intro blocks msize ix best b3 m3 c3 h; cases h
  | succ fuel ih =>
    intro blocks msize ix best b3 m3 c3 h hm hwf hdec hfg
    unfold scanFor at h
    by_cases hend : msize ≤ ix
    · rw [if_pos hend] at h
      cases h
      refine ⟨hm, hwf, hdec, ?_⟩
      intro j b hj hjm hb
      exact hfg j b (by omega) hjm hb
    · rw [if_neg hend] at h
      cases hos : outerStep items (fuel + 1) blocks msize ix with
      | none => rw [hos] at h; cases h
      | some t =>
        obtain ⟨b4, m4, c4⟩ := t
        rw [hos] at h
        dsimp only at h
        have hosp := outerStep_spec items (fuel + 1) blocks msize ix b4 m4 c4 hos
          hm hwf hdec hfg
        exact ih b4 m4 (ix + 1) (bestUpd best c4) b3 m3 c3 h
          (by omega) hosp.2.2.1 hosp.2.2.2.1 hosp.2.2.2.2

/-! ### Cascade lemmas for `merge_insert` -/

/-- The live slots are all non-empty. -/
def SizesPos (bs : List Block) (m : Nat) : Prop :=
  ∀ j b, j < m → bs[j]? = some b → 0 < b.size

/-- The structural invariant of `dist_lsm_local`: the live range fits the
written slots, every live block is wellformed and non-empty, and the size
classes strictly decrease. -/
def DInv (s : DState) : Prop :=
  s.msize ≤ s.blocks.length ∧ SlotsWf s.blocks s.msize ∧
  DecPows s.blocks s.msize ∧ SizesPos s.blocks s.msize

theorem dInit_inv : DInv dInit := by
  refine ⟨by simp [dInit], ?_, ?_, ?_⟩
  · intro j b hj hb
    simp [dInit] at hj
  · intro a c ba bc hac hcm ha hc
    simp [dInit] at hcm
  · intro j b hj hb
    simp [dInit] at hj

theorem cascade_drop_take (items : Store) :
    ∀ (rev : List Block) (ins : Block),
      ∃ k, k ≤ rev.length ∧ (cascade items rev ins).rest = rev.drop k ∧
        (cascade items rev ins).consumed = rev.take k := by
  intro rev
  induction rev with
  | nil => intro ins; exact ⟨0, by simp, rfl, rfl⟩
  | cons other rest ih =>
    intro ins
    unfold cascade
    by_cases hcap : other.cap = ins.cap
    · rw [if_pos hcap]
      obtain ⟨k, hk, h1, h2⟩ := ih (Block.mergeB items
        (if ins.size + other.size ≤ ins.cap then ins.pow else ins.pow + 1) ins other)
      exact ⟨k + 1, by simpa using Nat.succ_le_succ hk, h1, by simpa using h2⟩
    · rw [if_neg hcap]
      exact ⟨0, by simp, rfl, rfl⟩

theorem cascade_trace_pow (items : Store) :
    ∀ (rev : List Block) (ins : Block) (st : MStep),
      st ∈ (cascade items rev ins).trace →
      st.mergedPow =
        if st.insSize + st.othSize ≤ 2 ^ st.insPow then st.insPow
        else st.insPow + 1 := by
  intro rev
  induction rev with
  | nil => intro ins st h; simp [cascade] at h
  | cons other rest ih =>
    intro ins st h
    unfold cascade at h
    by_cases hcap : other.cap = ins.cap
    · rw [if_pos hcap] at h
      dsimp only at h
      rcases List.mem_cons.mp h with h1 | h1
      · subst h1
        rfl
      · exact ih _ st h1
    · rw [if_neg hcap] at h
      simp at h

theorem mergeB_size_eq (items : Store) (p : Nat) (lhs rhs : Block) :
    (Block.mergeB items p lhs rhs).size =
      (lhs.live items).length + (rhs.live items).length := by
  show (Block.mergeB items p lhs rhs).pairs.length - 0 = _
  rw [mergeB_pairs_length]
  omega

/-- An all-owned block with `first = 0` has its full written range as
size, and this equals the live count. -/
theorem owned_size_eq (items : Store) (b : Block)
    (h0 : b.first = 0) (ho : AllOwned items b) :
    (b.live items).length = b.size ∧ b.size = b.pairs.length := by
  rw [live_eq_pairs items b h0 ho]
  constructor
  · show b.pairs.length = b.pairs.length - b.first
    rw [h0]
    omega
  · show b.pairs.length - b.first = b.pairs.length
    rw [h0]
    omega

theorem cascade_size_mono (items : Store) :
    ∀ (rev : List Block) (ins : Block),
      AllOwned items ins → ins.first = 0 →
      ins.size ≤ (cascade items rev ins).fin.size := by
  intro rev
  induction rev with
  | nil => intro ins _ _; exact le_refl _
  | cons other rest ih =>
    intro ins ho h0
    unfold cascade
    by_cases hcap : other.cap = ins.cap
    · rw [if_pos hcap]
      dsimp only
      have hins : ins.size ≤ (Block.mergeB items
          (if ins.size + other.size ≤ ins.cap then ins.pow else ins.pow + 1)
          ins other).size := by
        rw [mergeB_size_eq]
        have hle := (owned_size_eq items ins h0 ho).1
        omega
      have hrec := ih (Block.mergeB items
          (if ins.size + other.size ≤ ins.cap then ins.pow else ins.pow + 1)
          ins other) (mergeB_allOwned items _ ins other) rfl
      exact le_trans hins hrec
    · rw [if_neg hcap]

theorem cascade_trace_size_le (items : Store) :
    ∀ (rev : List Block) (ins : Block) (st : MStep),
      st ∈ (cascade items rev ins).trace →
      st.mergedSize ≤ (cascade items rev ins).fin.size := by
  intro rev
  induction rev with
  | nil => intro ins st h; simp [cascade] at h
  | cons other rest ih =>
    intro ins st h
    unfold cascade
    by_cases hcap : other.cap = ins.cap
    · rw [if_pos hcap]
      dsimp only
      unfold cascade at h
      rw [if_pos hcap] at h
      dsimp only at h
      rcases List.mem_cons.mp h with h1 | h1
      · subst h1
        dsimp only
        exact cascade_size_mono items rest _ (mergeB_allOwned items _ ins other) rfl
      · exact ih _ st h1
    · rw [if_neg hcap]
      unfold cascade at h
      rw [if_neg hcap] at h
      simp at h

/-- Main cascade invariant: from a strictly increasing reversed live list
and a fresh all-owned insert block, the final merged block is wellformed,
all-owned, non-empty, and strictly smaller in size class than the first
unconsumed block. -/
theorem cascade_spec (items : Store) :
    ∀ (rev : List Block) (ins : Block),
      List.Pairwise (fun a b => a.pow < b.pow) rev →
      (∀ b ∈ rev, BlockWf b) →
      BlockWf ins → AllOwned items ins → ins.first = 0 →
      0 < ins.pairs.length →
      (∀ h ∈ rev.head?, ins.pow ≤ h.pow) →
      BlockWf (cascade items rev ins).fin ∧
      AllOwned items (cascade items rev ins).fin ∧
      (cascade items rev ins).fin.first = 0 ∧
      0 < (cascade items rev ins).fin.pairs.length ∧
      (∀ h ∈ (cascade items rev ins).rest.head?,
        (cascade items rev ins).fin.pow < h.pow) := by
  intro rev
  induction rev with
  | nil =>
    intro ins _ _ hwf ho h0 hpos _
    exact ⟨hwf, ho, h0, hpos, by intro h hh; simp [cascade] at hh⟩
  | cons other rest ih =>
    intro ins hpair hwfall hwf ho h0 hpos hle
    unfold cascade
    by_cases hcap : other.cap = ins.cap
    · rw [if_pos hcap]
      dsimp only
      have hpoweq : other.pow = ins.pow := pow_eq_of_cap_eq hcap
      have hotherwf : BlockWf other := hwfall other (by simp)
      set mPow := if ins.size + other.size ≤ ins.cap then ins.pow else ins.pow + 1
        with hmdef
      have hmrange : mPow = ins.pow ∨ mPow = ins.pow + 1 := by
        rw [hmdef]; split <;> simp
      have hmPow : (Block.mergeB items mPow ins other).pow = mPow := rfl
      have hinssz := owned_size_eq items ins h0 ho
      have hmwf : BlockWf (Block.mergeB items mPow ins other) := by
        refine ⟨Nat.zero_le _, ?_⟩
        rw [mergeB_pairs_length, hmPow]
        have hlo : (other.live items).length ≤ other.size := live_length_le items other
        rcases le_or_lt (ins.size + other.size) ins.cap with hc | hc
        · have hmp : mPow = ins.pow := by rw [hmdef, if_pos hc]
          rw [hmp]
          have : ins.cap = 2 ^ ins.pow := rfl
          omega
        · have hmp : mPow = ins.pow + 1 := by rw [hmdef, if_neg (by omega)]
          rw [hmp]
          have h1 : (ins.live items).length ≤ 2 ^ ins.pow := by
            have := hwf.2
            omega
          have h2 : (other.live items).length ≤ 2 ^ ins.pow := by
            have ho2 := hotherwf.2
            rw [hpoweq] at ho2
            have hsz : other.size ≤ other.pairs.length := by
              simp only [Block.size, Block.last]
              omega
            omega
          have hsum : 2 ^ ins.pow + 2 ^ ins.pow = 2 ^ (ins.pow + 1) := by
            rw [← Nat.two_mul, ← Nat.pow_succ']
          omega
      have hmpos : 0 < (Block.mergeB items mPow ins other).pairs.length := by
        rw [mergeB_pairs_length]
        have := hinssz.1
        have : 0 < (ins.live items).length := by omega
        omega
      have hrec := ih (Block.mergeB items mPow ins other)
        (List.Pairwise.sublist (List.sublist_cons_self other rest) hpair)
        (fun b hb => hwfall b (List.mem_cons_of_mem other hb))
        hmwf (mergeB_allOwned items mPow ins other) rfl hmpos ?_
      · exact hrec
      · intro hh hmem
        have hhm : hh ∈ rest := by
          rcases List.head?_eq_getElem? rest ▸ hmem with hmem2
          exact List.mem_iff_getElem?.mpr ⟨0, hmem2⟩
        have hrel := (List.pairwise_cons.mp hpair).1 hh hhm
        rw [hmPow]
        rcases hmrange with hm | hm <;> rw [hm] <;> omega
    · rw [if_neg hcap]
      refine ⟨hwf, ho, h0, hpos, ?_⟩
      intro hh hmem
      simp only [List.head?_cons, Option.mem_def, Option.some.injEq] at hmem
      subst hmem
      have hle2 : ins.pow ≤ other.pow := hle other (by simp)
      have hne : ins.pow ≠ other.pow := by
        intro heq
        apply hcap
        show (2 : Nat) ^ other.pow = 2 ^ ins.pow
        rw [heq]
      show ins.pow < other.pow
      omega

/-- The reversed live list is strictly increasing in size class. -/
theorem pairwise_rev_of_dec (blocks : List Block) (msize : Nat)
    (hm : msize ≤ blocks.length) (hdec : DecPows blocks msize) :
    List.Pairwise (fun a b => a.pow < b.pow) (blocks.take msize).reverse := by
  rw [List.pairwise_reverse, List.pairwise_iff_getElem]
  intro a c ha hc hac
  have hlen : (blocks.take msize).length = msize := by
    rw [List.length_take]; omega
  have ha2 : (blocks.take msize)[a]? = some ((blocks.take msize)[a]) :=
    List.getElem?_eq_getElem ha
  have hc2 : (blocks.take msize)[c]? = some ((blocks.take msize)[c]) :=
    List.getElem?_eq_getElem hc
  rw [List.getElem?_take, if_pos (by omega)] at ha2
  rw [List.getElem?_take, if_pos (by omega)] at hc2
  exact hdec a c _ _ hac (by omega) ha2 hc2

theorem take_mem_slot (blocks : List Block) (msize : Nat) (b : Block)
    (hb : b ∈ blocks.take msize) : ∃ j, j < msize ∧ blocks[j]? = some b := by
  rcases List.mem_iff_getElem?.mp hb with ⟨j, hj⟩
  rw [List.getElem?_take] at hj
  by_cases hjm : j < msize
  · rw [if_pos hjm] at hj
    exact ⟨j, hjm, hj⟩
  · rw [if_neg hjm] at hj
    cases hj

/-- `merge_insert` preserves the structural invariant when handed a fresh
capacity-1 all-owned one-entry block. -/
theorem mergeInsert_inv (rlx : Nat) (hs : Bool) (s : DState) (nb : Block)
    (hinv : DInv s) (hown : AllOwned s.items nb) (hf0 : nb.first = 0)
    (hlen1 : nb.pairs.length = 1) (hp0 : nb.pow = 0) :
    DInv (mergeInsert rlx hs s nb).s := by
  obtain ⟨hm, hwf, hdec, hsz⟩ := hinv
  have hwfn : BlockWf nb := ⟨by omega, by rw [hlen1, hp0]; norm_num⟩
  have hlenlive : (s.blocks.take s.msize).length = s.msize := by
    rw [List.length_take]; omega
  have hlenrev : (s.blocks.take s.msize).reverse.length = s.msize := by
    rw [List.length_reverse, hlenlive]
  have hpair := pairwise_rev_of_dec s.blocks s.msize hm hdec
  have hwfrev : ∀ b ∈ (s.blocks.take s.msize).reverse, BlockWf b := by
    intro b hb
    rw [List.mem_reverse] at hb
    rcases take_mem_slot s.blocks s.msize b hb with ⟨j, hj, hjs⟩
    exact hwf j b hj hjs
  obtain ⟨hfwf, hfo, hff0, hfpos, hfhead⟩ :=
    cascade_spec s.items (s.blocks.take s.msize).reverse nb hpair hwfrev
      hwfn hown hf0 (by omega)
      (by intro hh hmem; rw [hp0]; exact Nat.zero_le _)
  obtain ⟨k, hk, hrest, hcons⟩ :=
    cascade_drop_take s.items (s.blocks.take s.msize).reverse nb
  have hkeep : (cascade s.items (s.blocks.take s.msize).reverse nb).rest.length =
      s.msize - k := by
    rw [hrest, List.length_drop, hlenrev]
  rw [hlenrev] at hk
  unfold mergeInsert
  by_cases hpub : hs = true ∧ (rlx + 1) / 2 ≤
      (cascade s.items (s.blocks.take s.msize).reverse nb).fin.size
  · rw [if_pos hpub]
    refine ⟨?_, ?_, ?_, ?_⟩ <;> dsimp only
    · omega
    · intro j b hj hb
      rw [hkeep] at hj
      exact hwf j b (by omega) hb
    · intro a c ba bc hac hcm ha hc
      rw [hkeep] at hcm
      exact hdec a c ba bc hac (by omega) ha hc
    · intro j b hj hb
      rw [hkeep] at hj
      exact hsz j b (by omega) hb
  · rw [if_neg hpub]
    have hkl : (cascade s.items (s.blocks.take s.msize).reverse nb).rest.length ≤
        s.blocks.length := by omega
    have hwg := fun j => writeSlot_get s.blocks
      (cascade s.items (s.blocks.take s.msize).reverse nb).rest.length
      (cascade s.items (s.blocks.take s.msize).reverse nb).fin j hkl
    have hfinsz : 0 < (cascade s.items (s.blocks.take s.msize).reverse nb).fin.size := by
      have h2 := (owned_size_eq s.items _ hff0 hfo).2
      omega
    refine ⟨?_, ?_, ?_, ?_⟩ <;> dsimp only
    · rw [writeSlot_length]
      split <;> omega
    · intro j b hj hb
      rw [hwg j] at hb
      split at hb
      · cases hb
        exact hfwf
      · rename_i hne
        rw [hkeep] at hj hne
        exact hwf j b (by omega) hb
    · intro a c ba bc hac hcm ha hc
      rw [hwg a] at ha
      rw [hwg c] at hc
      split at ha
      · rename_i hax
        rw [hkeep] at hax hcm
        omega
      · split at hc
        · rename_i hax hcx
          cases hc
          -- c is the freshly written slot: fin is strictly smaller in class
          -- than the last kept block, which bounds every kept block.
          rw [hkeep] at hax hcx hcm
          have hkeep1 : 1 ≤ s.msize - k := by omega
          have hheadg : (cascade s.items (s.blocks.take s.msize).reverse nb).rest.head? =
              (s.blocks.take s.msize).reverse[k]? := by
            rw [hrest]
            exact List.head?_drop _ k
          have hkrev : k < (s.blocks.take s.msize).length := by
            rw [hlenlive]; omega
          have hrevk : (s.blocks.take s.msize).reverse[k]? =
              (s.blocks.take s.msize)[s.msize - 1 - k]? := by
            rw [List.getElem?_reverse hkrev, hlenlive]
          have htk : (s.blocks.take s.msize)[s.msize - 1 - k]? =
              s.blocks[s.msize - 1 - k]? := by
            rw [List.getElem?_take, if_pos (by omega)]
          rcases hhd : (cascade s.items (s.blocks.take s.msize).reverse nb).rest.head? with
            _ | bL
          · rw [List.head?_eq_none_iff] at hhd
            rw [hhd] at hkeep
            simp at hkeep
            omega
          · have hbl : s.blocks[s.msize - 1 - k]? = some bL := by
              rw [← htk, ← hrevk, ← hheadg, hhd]
            have hfl : (cascade s.items (s.blocks.take s.msize).reverse nb).fin.pow <
                bL.pow := hfhead bL (by rw [hhd]; rfl)
            have hidx : s.msize - 1 - k = s.msize - k - 1 := by omega
            rcases Nat.lt_or_ge a (s.msize - k - 1) with hak | hak
            · have hstep := hdec a (s.msize - 1 - k) ba bL (by omega) (by omega) ha hbl
              omega
            · have hae : a = s.msize - 1 - k := by omega
              rw [hae, hbl] at ha
              cases ha
              omega
        · rename_i hax hcx
          rw [hkeep] at hcm hcx
          exact hdec a c ba bc hac (by omega) ha hc
    · intro j b hj hb
      rw [hwg j] at hb
      split at hb
      · cases hb
        exact hfinsz
      · rename_i hne
        rw [hkeep] at hj hne
        exact hsz j b (by omega) hb

theorem getItem_append (l : Store) (it : Item) : getItem (l ++ [it]) l.length = it := by
  unfold getItem
  rw [List.getD_eq_getElem?_getD, List.getElem?_concat_length]
  rfl

/-- The freshly inserted one-entry block is all-owned in the post-insert
store. -/
theorem fresh_entry_owned (s : DState) (k v : Nat) :
    AllOwned (dInsertState s k v).items
      ((getBlock 0).insertE ⟨s.items.length, 1⟩) := by
  intro e he
  simp only [getBlock, Block.insertE, List.nil_append, List.mem_singleton] at he
  subst he
  show entryOwned (dInsertState s k v).items ⟨s.items.length, 1⟩ = true
  unfold entryOwned
  have hit : (dInsertState s k v).items = s.items ++ [⟨k, v, 1⟩] := rfl
  rw [hit, getItem_append]
  rfl

/-- `insert` preserves the structural invariant. -/
theorem dInsert_inv (rlx : Nat) (hsl : Bool) (s : DState) (k v : Nat) (r : MIRes)
    (h : dInsert rlx hsl s k v = some r) (hinv : DInv s) : DInv r.s := by
  have hinv2 : DInv (dInsertState s k v) := hinv
  have hslow : DInv (dInsertSlow rlx hsl (dInsertState s k v) ⟨s.items.length, 1⟩).s := by
    apply mergeInsert_inv rlx hsl (dInsertState s k v) _ hinv2
      (fresh_entry_owned s k v) rfl rfl rfl
  obtain ⟨hm, hwf, hdec, hsz⟩ := hinv
  unfold dInsert at h
  by_cases hms : s.msize = 0
  · rw [if_pos hms] at h
    cases h
    exact hslow
  · rw [if_neg hms] at h
    cases htail : s.blocks[s.msize - 1]? with
    | none => rw [htail] at h; cases h
    | some tail =>
      rw [htail] at h
      dsimp only at h
      by_cases hroom : tail.last < tail.cap
      · rw [if_pos hroom] at h
        cases hpt : Block.peekTail (dInsertState s k v).items tail with
        | none =>
          rw [hpt] at h
          cases h
          exact hslow
        | some tk =>
          rw [hpt] at h
          dsimp only at h
          by_cases hord : tk ≤ k
          · rw [if_pos hord] at h
            cases h
            -- tail append
            have hms1 : s.msize - 1 < s.msize := by omega
            have htwf : BlockWf tail := hwf (s.msize - 1) tail hms1 htail
            have hlenix : s.msize - 1 < s.blocks.length := by
              rcases List.getElem?_eq_some.mp htail with ⟨hl, _⟩
              exact hl
            have hget : ∀ j, (s.blocks.set (s.msize - 1)
                (tail.insertE ⟨s.items.length, 1⟩))[j]? =
                if j = s.msize - 1 then some (tail.insertE ⟨s.items.length, 1⟩)
                else s.blocks[j]? := by
              intro j
              rw [List.getElem?_set]
              by_cases hj : j = s.msize - 1
              · rw [if_pos hj, if_pos hj.symm, if_pos (by omega)]
              · rw [if_neg (fun hh => hj hh.symm), if_neg hj]
            have hmsz : (dInsertState s k v).msize = s.msize := rfl
            have htlen : (tail.insertE ⟨s.items.length, 1⟩).pairs.length =
                tail.pairs.length + 1 := by
              simp [Block.insertE]
            have htfst : (tail.insertE ⟨s.items.length, 1⟩).first = tail.first := rfl
            have htpow : (tail.insertE ⟨s.items.length, 1⟩).pow = tail.pow := rfl
            have hroom2 : tail.pairs.length < 2 ^ tail.pow := hroom
            refine ⟨?_, ?_, ?_, ?_⟩ <;> dsimp only <;> rw [hmsz]
            · rw [List.length_set]; omega
            · intro j b hj hb
              rw [hget j] at hb
              split at hb
              · cases hb
                refine ⟨?_, ?_⟩
                · rw [htfst, htlen]
                  have := htwf.1
                  omega
                · rw [htlen, htpow]
                  omega
              · exact hwf j b hj hb
            · intro a c ba bc hac hcm ha hc
              have hpowt : (tail.insertE ⟨s.items.length, 1⟩).pow = tail.pow := rfl
              rw [hget a] at ha
              rw [hget c] at hc
              split at ha
              · rename_i hax
                cases ha
                rw [if_neg (by omega)] at hc
                rw [hpowt]
                exact hdec (s.msize - 1) c tail bc (by omega) hcm htail hc
              · split at hc
                · rename_i hcx
                  cases hc
                  rw [hpowt]
                  exact hdec a (s.msize - 1) ba tail (by omega) (by omega) ha htail
                · exact hdec a c ba bc hac hcm ha hc
            · intro j b hj hb
              rw [hget j] at hb
              split at hb
              · cases hb
                show 0 < (tail.insertE ⟨s.items.length, 1⟩).last -
                  (tail.insertE ⟨s.items.length, 1⟩).first
                show (tail.insertE ⟨s.items.length, 1⟩).pairs.length -
                  (tail.insertE ⟨s.items.length, 1⟩).first > 0
                rw [htlen, htfst]
                have := htwf.1
                omega
              · exact hsz j b hj hb
          · rw [if_neg hord] at h
            cases h
            exact hslow
      · rw [if_neg hroom] at h
        cases h
        exact hslow

/-- `peek` preserves the structural invariant. -/
theorem dlsmPeek_inv (fuel : Nat) (s s1 : DState) (best : Option PeekInfo)
    (h : dlsmPeek fuel s = some (s1, best)) (hinv : DInv s) : DInv s1 := by
  obtain ⟨hm, hwf, hdec, hsz⟩ := hinv
  have hscan : ∀ b3 m3 c3, scanFor s.items fuel s.blocks s.msize 0 none =
      some (b3, m3, c3) →
      DInv { s with blocks := b3, msize := m3, cached := c3 } := by
    intro b3 m3 c3 hsf
    have hsp := scanFor_spec s.items fuel s.blocks s.msize 0 none b3 m3 c3 hsf hm
      hwf hdec (by intro j b hj hjm hb; omega)
    refine ⟨hsp.1, hsp.2.1, hsp.2.2.1, ?_⟩
    intro j b hj hb
    have := hsp.2.2.2 j b hj hj hb
    omega
  unfold dlsmPeek at h
  cases hcb : s.cached with
  | none =>
    rw [hcb] at h
    unfold dlsmScan at h
    cases hsf : scanFor s.items fuel s.blocks s.msize 0 none with
    | none => rw [hsf] at h; cases h
    | some t =>
      obtain ⟨b3, m3, c3⟩ := t
      rw [hsf] at h
      dsimp only at h
      cases h
      exact hscan _ _ _ hsf
  | some c =>
    rw [hcb] at h
    dsimp only at h
    by_cases htk : cachedTaken s.items c = true
    · rw [if_pos htk] at h
      unfold dlsmScan at h
      cases hsf : scanFor s.items fuel s.blocks s.msize 0 none with
      | none => rw [hsf] at h; cases h
      | some t =>
        obtain ⟨b3, m3, c3⟩ := t
        rw [hsf] at h
        dsimp only at h
        cases h
        exact hscan _ _ _ hsf
    · rw [if_neg htk] at h
      cases h
      exact ⟨hm, hwf, hdec, hsz⟩

/-- `delete_min` preserves the structural invariant (the take only touches
the item store). -/
theorem deleteMin_inv (fuel : Nat) (interf : Store → Store) (s : DState)
    (r : Bool × Option Nat × DState)
    (h : deleteMin fuel interf s = some r) (hinv : DInv s) : DInv r.2.2 := by
  have hft : ∀ s2 best, DInv s2 → DInv (finishTake interf s2 best).2.2 := by
    intro s2 best hinv2
    unfold finishTake
    cases best with
    | none => exact hinv2
    | some c =>
      dsimp only
      cases htk : takeItem (interf s2.items) c.id c.ver with
      | none => exact hinv2
      | some p => exact hinv2
  unfold deleteMin at h
  cases hp : dlsmPeek fuel s with
  | none => rw [hp] at h; cases h
  | some t =>
    obtain ⟨s1, best⟩ := t
    rw [hp] at h
    dsimp only at h
    have hinv1 : DInv s1 := dlsmPeek_inv fuel s s1 best hp hinv
    cases best with
    | some c =>
      cases h
      exact hft s1 (some c) hinv1
    | none =>
      simp only [spyM] at h
      rw [if_neg (by omega)] at h
      cases h
      exact hft s1 none hinv1

/-- Every operation preserves the structural invariant. -/
theorem dStep_inv (rlx fuel : Nat) (s s2 : DState) (op : DOp)
    (h : dStep rlx fuel s op = some s2) (hinv : DInv s) : DInv s2 := by
  cases op with
  | ins k v hs =>
    unfold dStep at h
    dsimp only at h
    cases hi : dInsert rlx hs s k v with
    | none => rw [hi] at h; cases h
    | some r =>
      rw [hi] at h
      cases h
      exact dInsert_inv rlx hs s k v r hi hinv
  | del =>
    unfold dStep at h
    dsimp only at h
    cases hd : deleteMin fuel id s with
    | none => rw [hd] at h; cases h
    | some r =>
      rw [hd] at h
      cases h
      exact deleteMin_inv fuel id s r hd hinv
  | doPeek =>
    unfold dStep at h
    dsimp only at h
    cases hp : dlsmPeek fuel s with
    | none => rw [hp] at h; cases h
    | some t =>
      rw [hp] at h
      cases h
      exact dlsmPeek_inv fuel s t.1 t.2 hp hinv

/-- Any state reached by a run from the fresh state satisfies the
invariant. -/
theorem dRun_inv (rlx fuel : Nat) (ops : List DOp) (s : DState)
    (h : dRun rlx fuel ops = some s) : DInv s := by
  unfold dRun at h
  suffices hgen : ∀ (l : List DOp) (s0 : DState), DInv s0 →
      List.foldlM (dStep rlx fuel) s0 l = some s → DInv s by
    exact hgen ops dInit dInit_inv h
  intro l
  induction l with
  | nil =>
    intro s0 h0 hf
    simp only [List.foldlM_nil] at hf
    cases hf
    exact h0
  | cons op rest ih =>
    intro s0 h0 hf
    simp only [List.foldlM_cons] at hf
    cases hstep : dStep rlx fuel s0 op with
    | none => rw [hstep] at hf; cases hf
    | some s1 =>
      rw [hstep] at hf
      simp only [Option.bind_eq_bind, Option.some_bind] at hf
      exact ih s1 (dStep_inv rlx fuel s0 s1 op hstep h0) hf

end Kpq

namespace Kpq

/-! ### Concrete inputs used by the theorems -/

/-- State after `insert(0, 0)` on a fresh `dist_lsm_local` (no sLSM
handle): one item, one capacity-1 block, cached best set. -/
def c1S1 : DState :=
  ⟨[⟨0, 0, 1⟩], [⟨0, 0, [⟨0, 1⟩]⟩], 1, some ⟨0, 0, 1⟩⟩

/-- State after the first (successful) `delete_min`: the item was taken
(version bumped to 2), the block still lists its now-stale entry. -/
def c1S2 : DState :=
  ⟨[⟨0, 0, 2⟩], [⟨0, 0, [⟨0, 1⟩]⟩], 1, some ⟨0, 0, 1⟩⟩

/-- Item store of the `lazy_block::finalize` input: items 0 and 1 are live
(version 1 as expected), item 2 was taken elsewhere (version 2, entries
expect 1), and slot 3 backs the meaningless padding entries. -/
def c6Items : Store :=
  [⟨5, 5, 1⟩, ⟨3, 3, 1⟩, ⟨7, 7, 2⟩, ⟨100, 0, 5⟩]

/-- A meaningless slot in `[last, capacity)` of a block: references item 3
at a version it never had, hence never owned. -/
def c6Pad : Entry :=
  ⟨3, 4⟩

/-- First input block: capacity 4, one live entry with key 5. -/
def c6b0 : LBlock :=
  ⟨2, 1, [⟨0, 1⟩, c6Pad, c6Pad, c6Pad]⟩

/-- Second input block: capacity 4, a live entry with key 3 followed by a
stale entry (its item was taken), then meaningless slots. -/
def c6b1 : LBlock :=
  ⟨2, 2, [⟨1, 1⟩, ⟨2, 1⟩, c6Pad, c6Pad]⟩

/-- Item store for the equal-capacity `lazy_block` sequence: three live
items. -/
def c7Items : Store :=
  [⟨1, 1, 1⟩, ⟨2, 2, 1⟩, ⟨3, 3, 1⟩]

/-- Three capacity-1 blocks, each holding one live entry. -/
def c7b0 : LBlock := ⟨0, 1, [⟨0, 1⟩]⟩

/-- Second capacity-1 block. -/
def c7b1 : LBlock := ⟨0, 1, [⟨1, 1⟩]⟩

/-- Third capacity-1 block. -/
def c7b2 : LBlock := ⟨0, 1, [⟨2, 1⟩]⟩

/-- The lazy block after construction from `c7b0` and one merge of
`c7b1`: `m_power_of_2` has already been raised to 1. -/
def c7LB : LazyBlock :=
  ⟨1, [⟨c7b0, 0, 1⟩, ⟨c7b1, 0, 2⟩]⟩

/-- State reached by inserting keys 5 and 3 and deleting once: one live
capacity-2 block holding a stale entry for key 3 and a live entry for
key 5, with a taken cached best. -/
def cRunS : DState :=
  ⟨[⟨5, 5, 1⟩, ⟨3, 3, 2⟩], [⟨1, 0, [⟨1, 1⟩, ⟨0, 1⟩]⟩], 1, some ⟨3, 1, 1⟩⟩

/-- A state holding one capacity-1 block with a live key-2 item, used to
drive the cascading merge of `merge_insert`. -/
def c4S : DState :=
  ⟨[⟨2, 2, 1⟩, ⟨1, 1, 1⟩], [⟨0, 0, [⟨0, 1⟩]⟩], 1, none⟩

/-- A fresh capacity-1 block holding a live key-1 item, fed to
`merge_insert` on `c4S`. -/
def c4nb : Block :=
  ⟨0, 0, [⟨1, 1⟩]⟩

/-- A one-item state with a live cached best, used to exercise
`delete_min`'s CAS-failure path. -/
def c5S : DState :=
  ⟨[⟨3, 7, 1⟩], [⟨0, 0, [⟨0, 1⟩]⟩], 1, some ⟨3, 0, 1⟩⟩

/-- Interference taking item 0 between peek and the CAS (another thread's
successful `take`). -/
def c5Interf : Store → Store :=
  fun st => st.set 0 ⟨3, 7, 2⟩

/-! ### Theorems -/

/-- C1.  Refuted as stated: single-threaded conservation fails because the
drain can never terminate with `false`.  On the failing input — a fresh
`dist_lsm_local`, `insert(0, 0)` with a null sLSM handle, then two
`delete_min` calls — the first `delete_min` correctly returns the single
key, but the second reaches undefined behaviour instead of returning
`false`: its `peek` empties and removes the last block, `goto outer`
re-enters without re-checking `ix < m_size`, the released size-0 block is
seen again, and the removal `memmove` computes the byte count
`sizeof(m_blocks[0]) * (m_size - ix - 1)` with `m_size == ix`, which
underflows `size_t`.  The model therefore yields `none` (undefined
behaviour) for the second `delete_min`. -/
theorem dlsm_drain_after_empty_hits_undefined_memmove :
    (dInsert 256 false dInit 0 0).map (·.s) = some c1S1 ∧
    deleteMin 100 id c1S1 = some (true, some 0, c1S2) ∧
    deleteMin 100 id c1S2 = none :=
  ⟨rfl, rfl, rfl⟩

/-- C5.  Confirmed: `delete_min` returns `true` iff its peek finds a live
candidate and the single version CAS succeeds; with no candidate it
returns `false`; when the CAS fails (because of interference `interf`
between the peek and the CAS) it returns `false` without retrying — the
result is exactly the one take attempt `finishTake` applied to the peek's
outcome — and without writing the output value. -/
theorem delete_min_result_semantics (fuel : Nat) (interf : Store → Store)
    (s s1 : DState) (best : Option PeekInfo)
    (hpeek : dlsmPeek fuel s = some (s1, best)) :
    deleteMin fuel interf s = some (finishTake interf s1 best) ∧
    (best = none → deleteMin fuel interf s = some (false, none, s1)) ∧
    (∀ c, best = some c →
      ((finishTake interf s1 (some c)).1 = true ↔
        (getItem (interf s1.items) c.id).version = c.ver) ∧
      ((getItem (interf s1.items) c.id).version ≠ c.ver →
        finishTake interf s1 (some c) =
          (false, none, { s1 with items := interf s1.items }))) := by
  refine ⟨?_, ?_, ?_⟩
  · unfold deleteMin
    rw [hpeek]
    cases best with
    | none => simp [spyM]
    | some c => rfl
  · intro hb
    subst hb
    unfold deleteMin
    rw [hpeek]
    simp [spyM, finishTake]
  · intro c _
    constructor
    · unfold finishTake takeItem
      by_cases hv : (getItem (interf s1.items) c.id).version = c.ver
      · simp [hv]
      · simp [hv]
    · intro hv
      unfold finishTake takeItem
      simp [hv]

/-- Witness for C5: on a concrete one-item state whose cached best is
live, an interfering `take` between peek and CAS makes `delete_min` return
`false` with no value written; the theorem is applied at that input. -/
theorem delete_min_result_semantics_witness :
    deleteMin 10 c5Interf c5S = some (finishTake c5Interf c5S (some ⟨3, 0, 1⟩)) ∧
    ((finishTake c5Interf c5S (some ⟨3, 0, 1⟩)).1 = true ↔
      (getItem (c5Interf c5S.items) 0).version = 1) ∧
    finishTake c5Interf c5S (some ⟨3, 0, 1⟩) =
      (false, none, { c5S with items := c5Interf c5S.items }) :=
  ⟨(delete_min_result_semantics 10 c5Interf c5S c5S (some ⟨3, 0, 1⟩) rfl).1,
   ((delete_min_result_semantics 10 c5Interf c5S c5S (some ⟨3, 0, 1⟩) rfl).2.2
      ⟨3, 0, 1⟩ rfl).1,
   ((delete_min_result_semantics 10 c5Interf c5S c5S (some ⟨3, 0, 1⟩) rfl).2.2
      ⟨3, 0, 1⟩ rfl).2 (by decide)⟩

/-- C6.  Refuted (code bug): `lazy_block::next_head` tests `ix < b->last()`
instead of `i < b->last()` after its skip-stales loop, so a block whose
entries from `ix` on are all stale yields a "head" at the out-of-range
index `i = last`, and `finalize` copies the meaningless slot into the
output.  On the concrete input — block `c6b0` with live key 5 and block
`c6b1` with live key 3 followed by a stale entry — the merged output has
three entries: the two live ones and the meaningless padding entry
`c6Pad`, which is not owned; the specified output is exactly the two live
entries. -/
theorem lazy_finalize_emits_meaningless_entry :
    (lazyOfBlocks 50 8 c6Items c6b0 [(c6b1, 0)]).bind (lazyFinalize 50 c6Items)
      = some (.merged [⟨1, 1⟩, ⟨0, 1⟩, c6Pad]) ∧
    entryOwned c6Items c6Pad = false ∧
    ([(⟨1, 1⟩ : Entry), ⟨0, 1⟩, c6Pad].filter (entryOwned c6Items)).length = 2 :=
  ⟨rfl, rfl, rfl⟩

/-- Counterexample to C7 as stated: for three equal-capacity blocks the
second `merge` call violates the assertion
`m_power_of_2 == b->power_of_2()`, because each `merge` increments
`m_power_of_2`: after merging `c7b1` the lazy block is at power 1 while
`c7b2` still has power 0. -/
theorem lazy_merge_equal_blocks_assert_fails :
    lazyOfBlocks 50 8 c7Items c7b0 [(c7b1, 0)] = some c7LB ∧
    ¬ lazyMergeAsserts 8 c7LB c7b2 ∧
    lazyOfBlocks 50 8 c7Items c7b0 [(c7b1, 0), (c7b2, 0)] = none :=
  ⟨rfl, by decide, rfl⟩

/-- Helper: the merge fold raises the power by one per block and gathers at
most one head per block. -/
theorem lazyFold_pow_count (fuel mb : Nat) (items : Store) :
    ∀ (l : List (LBlock × Nat)) (lb lb' : LazyBlock),
      l.foldlM (fun acc bf => lazyMerge fuel mb items acc bf.1 bf.2) lb = some lb' →
      lb'.pow = lb.pow + l.length ∧ lb'.heads.length ≤ lb.heads.length + l.length := by
  intro l
  induction l with
  | nil => intro lb lb' h; cases h; simp
  | cons bf rest ih =>
    intro lb lb' h
    simp only [List.foldlM_cons] at h
    cases hm : lazyMerge fuel mb items lb bf.1 bf.2 with
    | none => rw [hm] at h; cases h
    | some lb1 =>
      rw [hm] at h
      simp only [Option.bind_eq_bind, Option.some_bind] at h
      have hrec := ih lb1 lb' h
      unfold lazyMerge at hm
      split at hm
      · cases hnh : nextHead fuel items bf.1 bf.2 with
        | none => rw [hnh] at hm; cases hm
        | some o =>
          rw [hnh] at hm
          cases o with
          | none =>
            cases hm
            obtain ⟨h1, h2⟩ := hrec
            dsimp only at h1 h2
            simp only [List.length_cons]
            exact ⟨by omega, by omega⟩
          | some h2 =>
            cases hm
            obtain ⟨h1, h2⟩ := hrec
            dsimp only at h1 h2
            simp only [List.length_append, List.length_cons, List.length_nil] at h2
            simp only [List.length_cons]
            exact ⟨by omega, by omega⟩
      · cases hm

/-- C7, amended.  The claim as stated fails for three or more equal-sized
blocks; what the code maintains is a doubling cascade: if the `i`-th block
handed to `merge` (0-based over the blocks after the first) has
`power_of_2` equal to `b0.power_of_2 + i` — i.e. the first merged block
matches the constructor's block and every later block is one size class
larger, matching `m_power_of_2` which each `merge` increments — and at
most `MaxBlocks` blocks are supplied in total, then both assertions of
`merge` hold at every call that is reached. -/
theorem lazy_merge_doubling_cascade_asserts_hold
    (fuel maxBlocks j : Nat) (items : Store) (b0 : LBlock)
    (rest : List (LBlock × Nat)) (lb : LazyBlock) (bj : LBlock × Nat)
    (hcount : rest.length + 1 ≤ maxBlocks)
    (hpows : ∀ i bf, rest[i]? = some bf → (bf : LBlock × Nat).1.pow = b0.pow + i)
    (hreach : lazyOfBlocks fuel maxBlocks items b0 (rest.take j) = some lb)
    (hj : rest[j]? = some bj) :
    lazyMergeAsserts maxBlocks lb bj.1 := by
  have hjlt : j < rest.length := by
    by_contra hge
    rw [List.getElem?_eq_none (by omega)] at hj
    cases hj
  unfold lazyOfBlocks at hreach
  cases hnew : lazyNew fuel items b0 0 with
  | none => rw [hnew] at hreach; cases hreach
  | some lb0 =>
    rw [hnew] at hreach
    have hfold := lazyFold_pow_count fuel maxBlocks items (rest.take j) lb0 lb hreach
    have hlen : (rest.take j).length = j := by
      simp only [List.length_take]; omega
    have hpow0 : lb0.pow = b0.pow ∧ lb0.heads.length ≤ 1 := by
      unfold lazyNew at hnew
      cases hnh : nextHead fuel items b0 0 with
      | none => rw [hnh] at hnew; cases hnew
      | some o =>
        rw [hnh] at hnew
        cases o with
        | none => cases hnew; simp
        | some hh => cases hnew; simp
    constructor
    · have : lb.heads.length ≤ lb0.heads.length + j := by
        rw [hlen] at hfold; exact hfold.2
      omega
    · have hbj : bj.1.pow = b0.pow + j := hpows j bj hj
      rw [hlen] at hfold
      omega

/-- A capacity-2 block, one size class above `c7b0`, as the doubling
cascade supplies for the second merge. -/
def c7b3 : LBlock := ⟨1, 2, [⟨1, 1⟩, ⟨2, 1⟩]⟩

/-- Witness for the amended C7: with the doubling sequence
`c7b0, c7b1, c7b3` (powers 0, 0, 1) the assertions of the second `merge`
call hold; the amended theorem is applied at this input. -/
theorem lazy_merge_doubling_cascade_asserts_hold_witness :
    lazyMergeAsserts 8 c7LB c7b3 :=
  lazy_merge_doubling_cascade_asserts_hold 50 8 1 c7Items c7b0
    [(c7b1, 0), (c7b3, 0)] c7LB (c7b3, 0) (by decide)
    (by
      intro i bf h
      match i with
      | 0 => cases h; rfl
      | 1 => cases h; rfl
      | n + 2 => simp at h)
    rfl rfl

/-- C8.  Confirmed: `spy` returns 0 and leaves the whole local state
untouched, and consequently `delete_min` coincides with the variant whose
spy-and-retry-peek branch is removed — the retry peek is dead code. -/
theorem spy_is_noop_and_retry_dead :
    (∀ s : DState, spyM s = (0, s)) ∧
    ∀ (fuel : Nat) (interf : Store → Store) (s : DState),
      deleteMin fuel interf s = deleteMinNoSpy fuel interf s := by
  refine ⟨fun s => rfl, ?_⟩
  intro fuel interf s
  unfold deleteMin deleteMinNoSpy
  cases h : dlsmPeek fuel s with
  | none => rfl
  | some p =>
    obtain ⟨s1, best⟩ := p
    cases best with
    | some c => rfl
    | none => simp [spyM]

/-- C2.  Confirmed: in every state of `dist_lsm_local` reachable by any
sequence of insert (with or without an sLSM handle), `delete_min` and
`peek` operations, the live blocks `m_blocks[0..m_size)` are non-empty and
their capacities are powers of two that strictly decrease with the
index. -/
theorem dlsm_size_class_invariant (rlx fuel : Nat) (ops : List DOp) (s : DState)
    (h : dRun rlx fuel ops = some s) :
    (∀ j b, j < s.msize → s.blocks[j]? = some b →
      0 < b.size ∧ ∃ p, b.cap = 2 ^ p) ∧
    (∀ i j bi bj, i < j → j < s.msize → s.blocks[i]? = some bi →
      s.blocks[j]? = some bj → bj.cap < bi.cap) := by
  obtain ⟨hm, hwf, hdec, hsz⟩ := dRun_inv rlx fuel ops s h
  constructor
  · intro j b hj hb
    exact ⟨hsz j b hj hb, ⟨b.pow, rfl⟩⟩
  · intro i j bi bj hij hj hbi hbj
    exact Nat.pow_lt_pow_right (by norm_num) (hdec i j bi bj hij hj hbi hbj)

/-- Witness for C2: after inserting keys 5 and 3 and one `delete_min`, the
single remaining block is non-empty with a power-of-two capacity; the
theorem is applied at that concrete run. -/
theorem dlsm_size_class_invariant_witness :
    0 < (⟨1, 0, [⟨1, 1⟩, ⟨0, 1⟩]⟩ : Block).size ∧
    ∃ p, (⟨1, 0, [⟨1, 1⟩, ⟨0, 1⟩]⟩ : Block).cap = 2 ^ p :=
  (dlsm_size_class_invariant 256 50 [.ins 5 5 false, .ins 3 3 false, .del] cRunS
    rfl).1 0 ⟨1, 0, [⟨1, 1⟩, ⟨0, 1⟩]⟩ (by decide) rfl

/-- The trace of `merge_insert` is the cascade trace regardless of the
publication decision. -/
theorem mergeInsert_trace (rlx : Nat) (hs : Bool) (s : DState) (nb : Block) :
    (mergeInsert rlx hs s nb).trace =
      (cascade s.items (s.blocks.take s.msize).reverse nb).trace := by
  unfold mergeInsert
  split <;> rfl

/-- C3.  Confirmed: if at any point during the cascading same-size merge
of `merge_insert` the merged block's size reaches at least
`⌈(Rlx + 1) / 2⌉ = (Rlx + 2) / 2` and an sLSM handle was supplied, then the
final merged block is published (`slsm->insert` receives it), released
rather than inserted into the local list (the list keeps exactly the
unconsumed head), and every trailing consumed block is released via
`set_unused`.  The merged block's size never decreases along the cascade,
so reaching the bound at any intermediate point implies the final test
`insert_block->size() >= (Rlx + 1) / 2` succeeds. -/
theorem merge_insert_publication (rlx : Nat) (s : DState) (nb : Block) (st : MStep)
    (hmlen : s.msize ≤ s.blocks.length)
    (hmem : st ∈ (mergeInsert rlx true s nb).trace)
    (hsz : (rlx + 2) / 2 ≤ st.mergedSize) :
    (mergeInsert rlx true s nb).published =
      some (cascade s.items (s.blocks.take s.msize).reverse nb).fin ∧
    (cascade s.items (s.blocks.take s.msize).reverse nb).fin ∈
      (mergeInsert rlx true s nb).released ∧
    (mergeInsert rlx true s nb).s.blocks = s.blocks ∧
    (mergeInsert rlx true s nb).s.msize =
      (cascade s.items (s.blocks.take s.msize).reverse nb).rest.length ∧
    ∀ j b, (cascade s.items (s.blocks.take s.msize).reverse nb).rest.length ≤ j →
      j < s.msize → j < s.blocks.length → s.blocks[j]? = some b →
      b ∈ (mergeInsert rlx true s nb).released := by
  rw [mergeInsert_trace] at hmem
  have hmono := cascade_trace_size_le s.items
    (s.blocks.take s.msize).reverse nb st hmem
  have hfin : (rlx + 1) / 2 ≤
      (cascade s.items (s.blocks.take s.msize).reverse nb).fin.size := by
    have hd : (rlx + 1) / 2 ≤ (rlx + 2) / 2 := Nat.div_le_div_right (by omega)
    omega
  obtain ⟨k, hk, hrest, hcons⟩ :=
    cascade_drop_take s.items (s.blocks.take s.msize).reverse nb
  have hcond : (true = true) ∧ (rlx + 1) / 2 ≤
      (cascade s.items (s.blocks.take s.msize).reverse nb).fin.size := ⟨rfl, hfin⟩
  unfold mergeInsert
  rw [if_pos hcond]
  refine ⟨rfl, ?_, rfl, rfl, ?_⟩
  · simp
  · intro j b hj hjm hjl hb
    dsimp only
    have hlenlive : (s.blocks.take s.msize).length = s.msize := by
      rw [List.length_take]; omega
    have hlenrev : (s.blocks.take s.msize).reverse.length = s.msize := by
      rw [List.length_reverse, hlenlive]
    have hkeep : (cascade s.items (s.blocks.take s.msize).reverse nb).rest.length =
        s.msize - k := by
      rw [hrest, List.length_drop, hlenrev]
    rw [hkeep] at hj
    have hlive : (s.blocks.take s.msize)[j]? = some b := by
      rw [List.getElem?_take, if_pos hjm]
      exact hb
    have hidx : s.msize - 1 - j < (s.blocks.take s.msize).length := by
      rw [hlenlive]; omega
    have hrev : (s.blocks.take s.msize).reverse[s.msize - 1 - j]? = some b := by
      rw [List.getElem?_reverse hidx, hlenlive]
      have : s.msize - 1 - (s.msize - 1 - j) = j := by omega
      rw [this]
      exact hlive
    have hjk : s.msize - 1 - j < k := by omega
    have hmemtake : b ∈ (s.blocks.take s.msize).reverse.take k := by
      apply List.mem_iff_getElem?.mpr
      refine ⟨s.msize - 1 - j, ?_⟩
      rw [List.getElem?_take, if_pos hjk]
      exact hrev
    rw [← hcons] at hmemtake
    simp only [List.mem_append]
    right
    exact hmemtake

/-- Witness for C3: on the concrete state `c4S` with relaxation 2, the
cascade's only merge reaches size 2 which meets the bound, and the merged
block is published; the theorem is applied at that input. -/
theorem merge_insert_publication_witness :
    (mergeInsert 2 true c4S c4nb).published =
      some (cascade c4S.items (c4S.blocks.take c4S.msize).reverse c4nb).fin :=
  (merge_insert_publication 2 c4S c4nb ⟨0, 1, 1, 1, 2⟩ (by decide) (by decide)
    (by decide)).1

/-- C4.  Confirmed: whenever the cascading merge of `merge_insert` combines
the incoming block with an equal-capacity predecessor, the merged block is
allocated in the next higher size class (`power_of_2 + 1`) iff the two
blocks' sizes sum to strictly more than the incoming block's capacity
`2 ^ power_of_2`, and in the same size class otherwise. -/
theorem merge_insert_size_class_bookkeeping (rlx : Nat) (hs : Bool) (s : DState)
    (nb : Block) (st : MStep) (hmem : st ∈ (mergeInsert rlx hs s nb).trace) :
    (st.mergedPow = st.insPow + 1 ↔ 2 ^ st.insPow < st.insSize + st.othSize) ∧
    (st.mergedPow = st.insPow ↔ st.insSize + st.othSize ≤ 2 ^ st.insPow) := by
  rw [mergeInsert_trace] at hmem
  have hpow := cascade_trace_pow s.items
    (s.blocks.take s.msize).reverse nb st hmem
  by_cases hc : st.insSize + st.othSize ≤ 2 ^ st.insPow
  · rw [if_pos hc] at hpow
    constructor
    · constructor
      · intro h1; omega
      · intro h1; omega
    · constructor
      · intro h1; exact hc
      · intro h1; exact hpow
  · rw [if_neg hc] at hpow
    constructor
    · constructor
      · intro h1; omega
      · intro h1; exact hpow
    · constructor
      · intro h1; omega
      · intro h1; omega

/-- Witness for C4: in the concrete cascade on `c4S`, sizes 1 + 1 exceed
capacity 1, and the merged block indeed moves to size class 1; the theorem
is applied at that input. -/
theorem merge_insert_size_class_bookkeeping_witness :
    ((1 : Nat) = 0 + 1 ↔ 2 ^ 0 < 1 + 1) ∧ ((1 : Nat) = 0 ↔ 1 + 1 ≤ 2 ^ 0) :=
  merge_insert_size_class_bookkeeping 2 false c4S c4nb ⟨0, 1, 1, 1, 2⟩ (by decide)

/-- Non-short-circuit `peek` runs leave every remaining block more than
half full. -/
theorem dlsmScan_front (fuel : Nat) (s s2 : DState) (best : Option PeekInfo)
    (h : dlsmScan fuel s = some (s2, best)) (hinv : DInv s) :
    ∀ j b, j < s2.msize → s2.blocks[j]? = some b → b.cap / 2 < b.size := by
  obtain ⟨hm, hwf, hdec, hsz⟩ := hinv
  unfold dlsmScan at h
  cases hsf : scanFor s.items fuel s.blocks s.msize 0 none with
  | none => rw [hsf] at h; cases h
  | some t =>
    obtain ⟨b3, m3, c3⟩ := t
    rw [hsf] at h
    dsimp only at h
    cases h
    have hsp := scanFor_spec s.items fuel s.blocks s.msize 0 none b3 m3 _ hsf hm
      hwf hdec (by intro j b hj hjm hb; omega)
    intro j b hj hb
    exact hsp.2.2.2 j b hj hj hb

/-- C10.  Confirmed: whenever `peek` performs its full scan on a reachable
state (the cached-best short-circuit does not fire) and returns normally,
every block remaining in the local block list has size strictly greater
than half its capacity: a half-empty block was removed (if empty) or
shrunk into the next lower size class and possibly merged with its right
neighbour. -/
theorem peek_full_scan_postcondition (rlx fuel0 fuel : Nat) (ops : List DOp)
    (s s2 : DState) (best : Option PeekInfo)
    (hreach : dRun rlx fuel0 ops = some s)
    (hcache : ∀ c, s.cached = some c → cachedTaken s.items c = true)
    (hp : dlsmPeek fuel s = some (s2, best)) :
    ∀ j b, j < s2.msize → s2.blocks[j]? = some b → b.cap / 2 < b.size := by
  have hinv := dRun_inv rlx fuel0 ops s hreach
  unfold dlsmPeek at hp
  cases hcb : s.cached with
  | none =>
    rw [hcb] at hp
    exact dlsmScan_front fuel s s2 best hp hinv
  | some c =>
    rw [hcb] at hp
    dsimp only at hp
    rw [if_pos (hcache c hcb)] at hp
    exact dlsmScan_front fuel s s2 best hp hinv

/-- Witness for C10: on the reachable state `cRunS` (cached best taken) the
full scan shrinks the half-empty block into capacity 1, leaving it more
than half full; the theorem is applied at that input. -/
theorem peek_full_scan_postcondition_witness :
    (⟨0, 0, [⟨0, 1⟩]⟩ : Block).cap / 2 < (⟨0, 0, [⟨0, 1⟩]⟩ : Block).size :=
  peek_full_scan_postcondition 256 50 50 [.ins 5 5 false, .ins 3 3 false, .del]
    cRunS ⟨cRunS.items, [⟨0, 0, [⟨0, 1⟩]⟩], 1, some ⟨5, 0, 1⟩⟩ (some ⟨5, 0, 1⟩)
    rfl (fun c hc => by cases hc; rfl) rfl
    0 ⟨0, 0, [⟨0, 1⟩]⟩ (by decide) rfl

/-- C9.  Confirmed: `interval_tree::count_before(index)` returns the
caller-supplied index unchanged, for every tree state — in particular
after any sequence of `insert` calls. -/
theorem count_before_identity (t : IntervalTree) (index : Nat) :
    t.count_before index = index :=
  rfl

end Kpq
